import Mathlib

/-!
Verification of `quienny.cpp` (Quine–McCluskey prime-implicant generator).

The development shallowly embeds the program.  The default build uses the
generic `vector<bool>` bitvector and the optimized block/slice generator;
both are modelled here, together with the `NOPTIMIZE` all-pairs generator
and the `FIXED` word-based bitvector, which are needed by several claims.

Machine loops are translated as follows: the advancing-index `while` loops
of `generate` become structurally recursive functions carrying an explicit
fuel that is chosen, at every call site, to be at least the number of steps
the corresponding C++ loop can take, so the Lean function and the loop
agree; the outer round loop of `generate` is likewise run with fuel
`genBound p`, which is proved sufficient.
-/

namespace Quienny

/-! ### The generic bitvector (`vector<bool> bits`) -/

/-- A generic bitvector is a `vector<bool>`. -/
abbrev bitvec := List Bool

/-- C++ `bool get(const size_t i) const { return bits[i]; }` (out-of-range reads,
which the program never performs, default to `false`). -/
def bvget (v : bitvec) (i : Nat) : Bool := v.getD i false

/-- C++ `void set(const size_t i, bool value) { bits[i] = value; }` -/
def bvset (v : bitvec) (i : Nat) (b : Bool) : bitvec := v.set i b

/-- C++ `void add(const size_t, bool value) { bits.push_back(value); }` -/
def bvadd (v : bitvec) (b : Bool) : bitvec := v ++ [b]

/-- C++ `bool operator<(const bitvector &other) const { return bits < other.bits; }`
— `std::vector<bool>` compares lexicographically, index 0 first,
`false < true`. -/
def bvlt : bitvec → bitvec → Bool
  | _, [] => false
  | [], _ :: _ => true
  | a :: as, b :: bs => (!a && b) || (a == b && bvlt as bs)

/-! ### Monomials -/

/-- C++ `struct monomial { size_t ones; bitvector mask; bitvector values; }` -/
structure monomial where
  ones : Nat
  mask : bitvec
  values : bitvec
deriving DecidableEq, Repr, Inhabited

/-- Indexing `p[i]` into a polynomial's monomial array (always in range in
the program). -/
def mget (p : List monomial) (i : Nat) : monomial := p.getD i default

/-- C++ `monomial::operator==`: `false` if masks differ, else the values must
agree on every masked-in position `i` of `variables = n`. -/
def meq (n : Nat) (a b : monomial) : Bool :=
  a.mask == b.mask &&
    (List.range n).all fun i => !(bvget a.mask i) || (bvget a.values i == bvget b.values i)

/-- C++ `monomial::operator<`: by `ones`, then `mask`, then `values`. -/
def mlt (a b : monomial) : Bool :=
  if a.ones < b.ones then true
  else if b.ones < a.ones then false
  else if bvlt a.mask b.mask then true
  else if bvlt b.mask a.mask then false
  else bvlt a.values b.values

/-- The weak order corresponding to `mlt`, as used by `std::stable_sort`:
keep `a` before `b` unless `b < a`. -/
def mle (a b : monomial) : Bool := !(mlt b a)

/-- The scanning loop of the generic `monomial::match`: walk the variable
indices, remembering in the accumulator the unique position found so far
where the values differ; a `1 → 0` transition or a second difference
returns failure. -/
def matchGo (mi mj : monomial) : List Nat → Option Nat → Option Nat
  | [], acc => acc
  | i :: rest, acc =>
    let tv := bvget mi.values i
    let ov := bvget mj.values i
    if tv == ov then matchGo mi mj rest acc
    else if tv && !ov then none
    else
      match acc with
      | some _ => none
      | none => matchGo mi mj rest (some i)

/-- C++ `monomial::match` of the default (optimized) build: values must differ
in exactly one position, as a `0 → 1` transition; `some where` on success.
(The optimized build only asserts the caller-established preconditions.) -/
def matchCore (n : Nat) (mi mj : monomial) : Option Nat :=
  matchGo mi mj (List.range n) none

/-- C++ `monomial::match` of the `NOPTIMIZE` build, which additionally checks
`ones + 1 == other.ones` and `mask == other.mask` before scanning. -/
def matchNopt (n : Nat) (mi mj : monomial) : Option Nat :=
  if mi.ones + 1 = mj.ones then
    if mi.mask = mj.mask then matchCore n mi mj else none
  else none

/-! ### Consensus -/

/-- The monomial built by a successful `consensus`: copy `mi`, clear mask
bit `k`. -/
def merged (mi : monomial) (k : Nat) : monomial :=
  ⟨mi.ones, bvset mi.mask k false, mi.values⟩

/-- C++ `consensus(mi, mj, next)` of the default build: on a successful match
append the merged monomial to `next` and return `true`; otherwise return
`false` with `next` untouched. -/
def consensus (n : Nat) (mi mj : monomial) (next : List monomial) : Bool × List monomial :=
  match matchCore n mi mj with
  | none => (false, next)
  | some k => (true, next ++ [merged mi k])

/-- C++ `consensus` as a partial function returning the merged monomial. -/
def consensusO (n : Nat) (mi mj : monomial) : Option monomial :=
  (matchCore n mi mj).map (merged mi)

/-- C++ `consensus` of the `NOPTIMIZE` build. -/
def consensusNO (n : Nat) (mi mj : monomial) : Option monomial :=
  (matchNopt n mi mj).map (merged mi)

/-! ### `polynomial::normalize` -/

/-- The compaction pass of `normalize`: after the initial element, keep an
element exactly when it differs (`operator!=`) from the last kept one. -/
def compactGo (n : Nat) (prev : monomial) : List monomial → List monomial
  | [] => []
  | y :: ys => if meq n y prev then compactGo n prev ys else y :: compactGo n y ys

/-- C++ `normalize`'s duplicate removal (`*i != j[-1]` keeps `*i`). -/
def compact (n : Nat) : List monomial → List monomial
  | [] => []
  | x :: xs => x :: compactGo n x xs

/-- The weak order `mle` as a `Prop` relation (for the stable sort). -/
def mrel (a b : monomial) : Prop := mle a b = true

instance : DecidableRel mrel := fun a b => inferInstanceAs (Decidable (mle a b = true))

/-- C++ `polynomial::normalize`: `std::stable_sort` by `operator<` (modelled by
the stable insertion sort — a stable sort's output is uniquely determined
by the comparator, so any stable sort is a faithful model), then remove
adjacent duplicates. -/
def normalize (n : Nat) (l : List monomial) : List monomial :=
  compact n (List.insertionSort mrel l)

/-! ### The generator loops

Each `while` loop advancing an index becomes a recursion with enough fuel. -/

/-- An advancing index: starting from `e`, step forward while the index is
below `limit` and the monomial there satisfies `q` (this is the shape of
every inner `while` loop of the optimized `generate`). -/
def extendW (p : List monomial) (q : monomial → Bool) (limit : Nat) : Nat → Nat → Nat
  | 0, e => e
  | fuel + 1, e => if e < limit && q (mget p e) then extendW p q limit fuel (e + 1) else e

/-- The cross-product comparison of a first slice `[iB, iE)` against a
second slice `[jB, jE)`: record every pair on which `consensus` succeeds. -/
def cross (n : Nat) (p : List monomial) (iB iE jB jE : Nat) : List (Nat × Nat) :=
  (List.range' iB (iE - iB)).flatMap fun i =>
    ((List.range' jB (jE - jB)).filter fun j =>
        (consensusO n (mget p i) (mget p j)).isSome).map fun j => (i, j)

/-- The slice loop of the optimized `generate` over a first block ending at
`efb` and a second block ending at `esb`: cut the next first slice
`[bfs, efs)`, advance `begin_second_slice` while its mask differs from the
first slice's, and if it stopped inside the block, cross the two slices.
The fuel (`efb` at the outer call) bounds the number of slices. -/
def slicesLoop (n : Nat) (p : List monomial) (efb esb : Nat) :
    Nat → Nat → Nat → List (Nat × Nat)
  | 0, _, _ => []
  | fuel + 1, bfs, bss =>
    if bfs < efb then
      let target := (mget p bfs).mask
      let efs := extendW p (fun m => m.mask == target) efb (efb - (bfs + 1)) (bfs + 1)
      let bss' := extendW p (fun m => !(m.mask == target)) esb (esb - bss) bss
      let here :=
        if bss' < esb then
          let ess := extendW p (fun m => m.mask == target) esb (esb - (bss' + 1)) (bss' + 1)
          cross n p bfs efs bss' ess
        else []
      here ++ slicesLoop n p efb esb fuel efs bss'
    else []

/-- The block loop of the optimized `generate`: with the first block
`[bfb, efb)` in hand, cut the second block, and when their `ones` counts
are adjacent, run the slice loop.  The fuel (`p.length` at the outer call)
bounds the number of blocks. -/
def blocksLoop (n : Nat) (p : List monomial) : Nat → Nat → Nat → List (Nat × Nat)
  | 0, _, _ => []
  | fuel + 1, bfb, efb =>
    if efb < p.length then
      let bsb := efb
      let esb := extendW p (fun m => m.ones == (mget p bsb).ones) p.length
        (p.length - (bsb + 1)) (bsb + 1)
      let here :=
        if (mget p bfb).ones + 1 == (mget p bsb).ones then
          slicesLoop n p efb esb efb bfb bsb
        else []
      here ++ blocksLoop n p fuel bsb esb
    else []

/-- The successful `consensus` pairs of one optimized round, in the order
the loops try them. -/
def succPairsOpt (n : Nat) (p : List monomial) : List (Nat × Nat) :=
  blocksLoop n p p.length 0
    (extendW p (fun m => m.ones == (mget p 0).ones) p.length (p.length - 1) 1)

/-- The successful `consensus` pairs of one `NOPTIMIZE` round: all pairs
`i < j`, filtered by success. -/
def succPairsNopt (n : Nat) (p : List monomial) : List (Nat × Nat) :=
  (List.range (p.length - 1)).flatMap fun i =>
    ((List.range' (i + 1) (p.length - (i + 1))).filter fun j =>
        (consensusNO n (mget p i) (mget p j)).isSome).map fun j => (i, j)

/-- The monomials of `p` whose `prime` flag survives a round: those indices
that occur in no successful pair. -/
def primesAdd (p : List monomial) (pairs : List (Nat × Nat)) : List monomial :=
  ((List.range p.length).filter fun i =>
    pairs.all fun pr => decide (pr.1 ≠ i) && decide (pr.2 ≠ i)).map (mget p)

/-- The `next` polynomial of one optimized round: the merged monomial of
each successful pair, in order. -/
def nextRound (n : Nat) (p : List monomial) (pairs : List (Nat × Nat)) : List monomial :=
  pairs.filterMap fun pr => consensusO n (mget p pr.1) (mget p pr.2)

/-- The `next` polynomial of one `NOPTIMIZE` round. -/
def nextRoundN (n : Nat) (p : List monomial) (pairs : List (Nat × Nat)) : List monomial :=
  pairs.filterMap fun pr => consensusNO n (mget p pr.1) (mget p pr.2)

/-- One whole optimized round on a non-empty `p`, as the round loop
performs it: `next.normalize()` becomes the next `p`. -/
def stepOpt (n : Nat) (p : List monomial) : List monomial :=
  normalize n (nextRound n p (succPairsOpt n p))

/-- C++ `generate` of the default build, with fuel for the round loop: returns
the remaining `p` (empty whenever the fuel suffices) and the accumulated
`primes`. -/
def generateOpt (n : Nat) : Nat → List monomial → List monomial →
    List monomial × List monomial
  | 0, p, primes => (p, primes)
  | fuel + 1, p, primes =>
    if p.isEmpty then (p, primes)
    else
      let pairs := succPairsOpt n p
      generateOpt n fuel (normalize n (nextRound n p pairs)) (primes ++ primesAdd p pairs)

/-- C++ `generate` of the `NOPTIMIZE` build. -/
def generateNopt (n : Nat) : Nat → List monomial → List monomial →
    List monomial × List monomial
  | 0, p, primes => (p, primes)
  | fuel + 1, p, primes =>
    if p.isEmpty then (p, primes)
    else
      let pairs := succPairsNopt n p
      generateNopt n fuel (normalize n (nextRoundN n p pairs)) (primes ++ primesAdd p pairs)

/-- The largest `ones` field in `p`. -/
def maxOnes (p : List monomial) : Nat := p.foldr (fun m acc => max m.ones acc) 0

/-- Enough fuel for the round loop of `generate` on `p`. -/
def genBound (p : List monomial) : Nat := if p.isEmpty then 0 else maxOnes p + 1

/-! ### The whole pipeline of `main` (row level) -/

/-- A parsed input row as a monomial: every mask bit true, `ones` the
number of `'1'` characters. -/
def inputPoly (rows : List (List Bool)) : List monomial :=
  rows.map fun r => ⟨r.count true, List.replicate r.length true, r⟩

/-- C++ `main` of the default build on an input polynomial of minterm rows of
width `n`: parse, normalize, generate, normalize the primes. -/
def quiennyOpt (n : Nat) (rows : List (List Bool)) : List monomial :=
  let minterms := normalize n (inputPoly rows)
  normalize n (generateOpt n (genBound minterms) minterms []).2

/-- C++ `main` of the `NOPTIMIZE` build on the same input. -/
def quiennyNopt (n : Nat) (rows : List (List Bool)) : List monomial :=
  let minterms := normalize n (inputPoly rows)
  normalize n (generateNopt n (genBound minterms) minterms []).2

/-- C++ `monomial::print`: one output row, `'0'`/`'1'` where masked-in, `'-'`
for don't-care positions. -/
def printRow (n : Nat) (m : monomial) : List Char :=
  (List.range n).map fun i =>
    if bvget m.mask i then (if bvget m.values i then '1' else '0') else '-'

/-! ### Coverage (the semantics of a monomial) -/

/-- A minterm `x` is covered by monomial `m` when `x` agrees with the
values of `m` on every masked-in position below `n`. -/
def covers (n : Nat) (m : monomial) (x : List Bool) : Bool :=
  (List.range n).all fun i => !(bvget m.mask i) || (bvget m.values i == bvget x i)

/-- Some monomial of `l` covers `x`. -/
def covE (n : Nat) (l : List monomial) (x : List Bool) : Bool :=
  l.any fun m => covers n m x

/-! ### The character-level parser

`parse_error` and `die` terminate the process; parsing is therefore
modelled in `Except Unit`. -/

/-- C++ `max_variables` of the generic build, `~(size_t)0`. -/
def maxVariables : Nat := 2 ^ 64 - 1

/-- The loop of `monomial::parse_first`: consume `'0'`/`'1'` characters up
to a new-line, appending to mask and values and counting `variables`; any
other character (or end-of-file before the new-line) is a parse error.
The capacity check sits in the `else if` chain, so it is only reached on a
`'0'` character. -/
def parseFirstGo : List Char → monomial → Nat → Except Unit (monomial × Nat × List Char)
  | [], _, _ => .error ()
  | c :: cs, m, n =>
    if c = '\n' then .ok (m, n, cs)
    else if c = '1' then
      parseFirstGo cs ⟨m.ones + 1, bvadd m.mask true, bvadd m.values true⟩ (n + 1)
    else if c ≠ '0' then .error ()
    else if n = maxVariables then .error ()
    else parseFirstGo cs ⟨m.ones, bvadd m.mask true, bvadd m.values false⟩ (n + 1)

/-- The body of `monomial::parse_remaining` after the end-of-file test:
read one `'0'`/`'1'` character per variable position (setting mask and
values bits in place and accumulating `ones`), then require a new-line. -/
def parseRemGo (m : monomial) : Nat → Nat → List Char → Except Unit (monomial × List Char)
  | _, 0, cs =>
    match cs with
    | c :: rest => if c = '\n' then .ok (m, rest) else .error ()
    | [] => .error ()
  | i, r + 1, cs =>
    match cs with
    | c :: rest =>
      if c = '1' then
        parseRemGo ⟨m.ones + 1, bvset m.mask i true, bvset m.values i true⟩ (i + 1) r rest
      else if c = '0' then
        parseRemGo ⟨m.ones, bvset m.mask i true, bvset m.values i false⟩ (i + 1) r rest
      else .error ()
    | [] => .error ()

/-- C++ `monomial::parse_remaining`: `none` at end-of-file, otherwise reuse the
previous monomial's storage with `ones` reset to `0`. -/
def parseRemaining (n : Nat) (m : monomial) (cs : List Char) :
    Except Unit (Option (monomial × List Char)) :=
  match cs with
  | [] => .ok none
  | _ :: _ => (parseRemGo ⟨0, m.mask, m.values⟩ 0 n cs).map some

/-- The `while (m.parse_remaining()) add(m)` loop of `polynomial::parse`;
the fuel (the remaining input length at the call site) bounds the number of
lines, as every parsed line consumes at least one character. -/
def parseLoop (n : Nat) : Nat → monomial → List Char → Except Unit (List monomial)
  | 0, _, cs =>
    match cs with
    | [] => .ok []
    | _ :: _ => .error ()
  | fuel + 1, m, cs =>
    match parseRemaining n m cs with
    | .error e => .error e
    | .ok none => .ok []
    | .ok (some (m', rest)) => (parseLoop n fuel m' rest).map (m' :: ·)

/-- C++ `polynomial::parse`: the first monomial fixes the number of variables;
end-of-file on the very first read leaves the polynomial empty (and the
variable count at `0`). -/
def polyParse (cs : List Char) : Except Unit (Nat × List monomial) :=
  match cs with
  | [] => .ok (0, [])
  | _ :: _ =>
    match parseFirstGo cs ⟨0, [], []⟩ 0 with
    | .error e => .error e
    | .ok (m, n, rest) => (parseLoop n rest.length m rest).map fun ms => (n, m :: ms)

/-- C++ `main` of the default build at the character level: parse, normalize,
generate, normalize and print the primes.  `.ok rows` is a run with exit
status 0 printing exactly `rows` (one newline-terminated line each);
`.error ()` is a fatal parse error (non-zero exit, no output rows). -/
def quiennyRun (cs : List Char) : Except Unit (List (List Char)) :=
  match polyParse cs with
  | .error e => .error e
  | .ok (n, ms) =>
    let minterms := normalize n ms
    .ok ((normalize n (generateOpt n (genBound minterms) minterms []).2).map (printRow n))

/-! ### The `FIXED` build's bitvector

`word bits` is modelled as a natural number below `2 ^ W` for a word of
`W` bits (`W = 32` for `-DFIXED=unsigned`). -/

/-- C++ `set` of the fixed bitvector:
`bits = (bits & ~((word)1 << i)) | ((word)value << i)`. -/
def fset (W bits i : Nat) (value : Bool) : Nat :=
  (bits &&& ((2 ^ W - 1) ^^^ (1 <<< i))) ||| ((if value then 1 else 0) <<< i)

/-- C++ `operator<` of the fixed bitvector: `return bits > other.bits;`. -/
def fixedLt (a b : Nat) : Bool := decide (b < a)

/-- The word built for an input row by the parser's successive
`add(i, value)` calls (which are `set` for the fixed bitvector). -/
def fixedOfRowGo (W : Nat) : Nat → Nat → List Bool → Nat
  | acc, _, [] => acc
  | acc, i, b :: r => fixedOfRowGo W (fset W acc i b) (i + 1) r

/-- The fixed-bitvector `values` word for a parsed row. -/
def fixedOfRow (W : Nat) (r : List Bool) : Nat := fixedOfRowGo W 0 0 r

/-- The number whose binary digits, least significant first, are the row's
bits (index 0 is the word's least significant bit). -/
def toNatLSB : List Bool → Nat
  | [] => 0
  | b :: r => (if b then 1 else 0) + 2 * toNatLSB r

/-- The number whose binary digits, most significant first, are the row's
bits (index 0 most significant). -/
def valMSB : List Bool → Nat
  | [] => 0
  | b :: r => (if b then 2 ^ r.length else 0) + valMSB r

/-- The `where` search of the `FIXED` `monomial::match`: `where = 1;`
then increment while `(word)1 << where != difference`.  Within the word
(shift amounts `1, …, W-1`) this finds the position of a power of two
`difference ≥ 2`; for `difference = 1` the loop never exits before the
shift amount reaches the word width, which in C is undefined — modelled as
`none`. -/
def fwhereGo (d : Nat) : Nat → Nat → Option Nat
  | 0, _ => none
  | fuel + 1, w => if 1 <<< w = d then some w else fwhereGo d fuel (w + 1)

/-- The result of the `FIXED` `where` search within the word. -/
def fwhere (W d : Nat) : Option Nat := fwhereGo d (W - 1) 1

/-- The `FIXED` build's `monomial::match` on the two values words (the
optimized build; preconditions are asserts): fail unless the XOR is a
power of two, then search for the differing position. -/
def fixedMatch (W vi vj : Nat) : Option Nat :=
  let difference := vi ^^^ vj
  if difference &&& (difference - 1) ≠ 0 then none
  else fwhere W difference

/-- Popcount of the masked-in value bits among the `n` variables — the
quantity the `ones` field caches. -/
def maskedOnes (n : Nat) (m : monomial) : Nat :=
  (List.range n).countP fun i => bvget m.mask i && bvget m.values i

/-- The don't-care invariant: every value bit outside the mask is clear. -/
def goodM (m : monomial) : Prop := ∀ i, bvget m.mask i = false → bvget m.values i = false

/-! ## Order lemmas for the bitvector and monomial comparisons -/

theorem bvlt_asymm : ∀ a b : bitvec, bvlt a b = true → bvlt b a = true → False := by
  intro a
  induction a with
  | nil => intro b h1 h2; cases b <;> simp [bvlt] at h1 h2
  | cons x xs ih =>
    intro b h1 h2
    cases b with
    | nil => simp [bvlt] at h1
    | cons y ys =>
      cases x <;> cases y <;> simp [bvlt] at h1 h2 <;> exact ih ys h1 h2

theorem bvlt_trans : ∀ a b c : bitvec,
    bvlt a b = true → bvlt b c = true → bvlt a c = true := by
  intro a
  induction a with
  | nil =>
    intro b c h1 h2
    cases b <;> cases c <;> simp [bvlt] at h1 h2 ⊢
  | cons x xs ih =>
    intro b c h1 h2
    cases b with
    | nil => simp [bvlt] at h1
    | cons y ys =>
      cases c with
      | nil => simp [bvlt] at h2
      | cons z zs =>
        cases x <;> cases y <;> cases z <;> simp [bvlt] at h1 h2 ⊢ <;>
          exact ih ys zs h1 h2

theorem bvlt_conn : ∀ a b : bitvec,
    bvlt a b = false → bvlt b a = false → a = b := by
  intro a
  induction a with
  | nil => intro b h1 h2; cases b <;> simp [bvlt] at h1 h2 ⊢
  | cons x xs ih =>
    intro b h1 h2
    cases b with
    | nil => simp [bvlt] at h2
    | cons y ys =>
      cases x <;> cases y <;> simp [bvlt] at h1 h2 ⊢ <;> exact ih ys h1 h2

theorem bvlt_irrefl (a : bitvec) : bvlt a a = false := by
  cases h : bvlt a a
  · rfl
  · exact absurd h (fun h => bvlt_asymm a a h h)

theorem mlt_iff {a b : monomial} : mlt a b = true ↔
    a.ones < b.ones ∨ (a.ones = b.ones ∧
      (bvlt a.mask b.mask = true ∨ (a.mask = b.mask ∧ bvlt a.values b.values = true))) := by
  unfold mlt
  rcases Nat.lt_trichotomy a.ones b.ones with ho | ho | ho
  · rw [if_pos ho]; simp [ho]
  · rw [if_neg (by omega), if_neg (by omega)]
    cases hm1 : bvlt a.mask b.mask
    · cases hm2 : bvlt b.mask a.mask
      · have hmeq : a.mask = b.mask := bvlt_conn _ _ hm1 hm2
        rw [if_neg (by simp [hm1]), if_neg (by simp [hm2])]
        simp [ho, hm1, hmeq]
      · have hne : a.mask ≠ b.mask := by
          intro he; rw [he] at hm2; simp [bvlt_irrefl] at hm2
        rw [if_neg (by simp [hm1]), if_pos (by simp [hm2])]
        simp [ho, hm1, hne]
    · rw [if_pos (by simp [hm1])]
      simp [ho, hm1]
  · rw [if_neg (by omega), if_pos ho]
    constructor
    · intro h; exact absurd h (by simp)
    · intro h; exfalso; rcases h with h | ⟨e, -⟩ <;> omega

theorem mlt_asymm {a b : monomial} (h1 : mlt a b = true) (h2 : mlt b a = true) : False := by
  rw [mlt_iff] at h1 h2
  rcases h1 with h1 | ⟨e1, h1⟩ <;> rcases h2 with h2 | ⟨e2, h2⟩
  · omega
  · omega
  · omega
  · rcases h1 with h1 | ⟨m1, v1⟩ <;> rcases h2 with h2 | ⟨m2, v2⟩
    · exact bvlt_asymm _ _ h1 h2
    · rw [m2] at h1; simp [bvlt_irrefl] at h1
    · rw [m1] at h2; simp [bvlt_irrefl] at h2
    · exact bvlt_asymm _ _ v1 v2

theorem mlt_irrefl (a : monomial) : mlt a a = false := by
  cases h : mlt a a
  · rfl
  · exact absurd h (fun h => mlt_asymm h h)

theorem mlt_conn {a b : monomial} (h1 : mlt a b = false) (h2 : mlt b a = false) : a = b := by
  have g1 : ¬ (a.ones < b.ones ∨ (a.ones = b.ones ∧
      (bvlt a.mask b.mask = true ∨ (a.mask = b.mask ∧ bvlt a.values b.values = true)))) := by
    rw [← mlt_iff]; simp [h1]
  have g2 : ¬ (b.ones < a.ones ∨ (b.ones = a.ones ∧
      (bvlt b.mask a.mask = true ∨ (b.mask = a.mask ∧ bvlt b.values a.values = true)))) := by
    rw [← mlt_iff]; simp [h2]
  have ho : a.ones = b.ones := by
    by_contra hne
    rcases Nat.lt_or_ge a.ones b.ones with h | h
    · exact g1 (Or.inl h)
    · exact g2 (Or.inl (by omega))
  have hm1 : bvlt a.mask b.mask = false := by
    cases hv : bvlt a.mask b.mask
    · rfl
    · exact absurd (Or.inr ⟨ho, Or.inl hv⟩) g1
  have hm2 : bvlt b.mask a.mask = false := by
    cases hv : bvlt b.mask a.mask
    · rfl
    · exact absurd (Or.inr ⟨ho.symm, Or.inl hv⟩) g2
  have hm : a.mask = b.mask := bvlt_conn _ _ hm1 hm2
  have hv1 : bvlt a.values b.values = false := by
    cases hv : bvlt a.values b.values
    · rfl
    · exact absurd (Or.inr ⟨ho, Or.inr ⟨hm, hv⟩⟩) g1
  have hv2 : bvlt b.values a.values = false := by
    cases hv : bvlt b.values a.values
    · rfl
    · exact absurd (Or.inr ⟨ho.symm, Or.inr ⟨hm.symm, hv⟩⟩) g2
  have hvv : a.values = b.values := bvlt_conn _ _ hv1 hv2
  cases a; cases b; simp_all

theorem mlt_trans {a b c : monomial} (h1 : mlt a b = true) (h2 : mlt b c = true) :
    mlt a c = true := by
  rw [mlt_iff] at h1 h2 ⊢
  rcases h1 with h1 | ⟨e1, h1⟩ <;> rcases h2 with h2 | ⟨e2, h2⟩
  · left; omega
  · left; omega
  · left; omega
  · right
    refine ⟨by omega, ?_⟩
    rcases h1 with h1 | ⟨m1, v1⟩ <;> rcases h2 with h2 | ⟨m2, v2⟩
    · left; exact bvlt_trans _ _ _ h1 h2
    · left; rw [← m2]; exact h1
    · left; rw [m1]; exact h2
    · right; exact ⟨m1.trans m2, bvlt_trans _ _ _ v1 v2⟩

theorem mle_trans : ∀ a b c : monomial, mle a b = true → mle b c = true → mle a c = true := by
  intro a b c h1 h2
  simp only [mle, Bool.not_eq_true'] at h1 h2 ⊢
  cases hca : mlt c a
  · rfl
  · exfalso
    cases hbc : mlt b c
    · have hcb : c = b := mlt_conn h2 hbc
      rw [hcb] at hca
      simp [hca] at h1
    · have hba : mlt b a = true := mlt_trans hbc hca
      simp [hba] at h1

theorem mle_total : ∀ a b : monomial, (mle a b || mle b a) = true := by
  intro a b
  simp only [mle, Bool.or_eq_true, Bool.not_eq_true']
  by_contra h
  push_neg at h
  obtain ⟨h1, h2⟩ := h
  exact mlt_asymm (by simpa using h1) (by simpa using h2)

/-! ## Normalization lemmas -/

theorem compactGo_sublist (n : Nat) : ∀ (l : List monomial) (prev : monomial),
    (compactGo n prev l).Sublist l := by
  intro l
  induction l with
  | nil => intro prev; simp [compactGo]
  | cons y ys ih =>
    intro prev
    by_cases h : meq n y prev = true
    · simp only [compactGo, if_pos h]
      exact (ih prev).cons y
    · simp only [compactGo, if_neg h]
      exact (ih y).cons₂ y

theorem compact_sublist (n : Nat) (l : List monomial) : (compact n l).Sublist l := by
  cases l with
  | nil => simp [compact]
  | cons x xs => exact (compactGo_sublist n xs x).cons₂ x

theorem compactGo_chain (n : Nat) : ∀ (l : List monomial) (prev : monomial),
    List.Chain' (fun a b => meq n b a = false) (prev :: compactGo n prev l) := by
  intro l
  induction l with
  | nil => intro prev; simp [compactGo]
  | cons y ys ih =>
    intro prev
    by_cases h : meq n y prev = true
    · simp only [compactGo, if_pos h]
      exact ih prev
    · simp only [compactGo, if_neg h]
      exact List.chain'_cons.2 ⟨by simpa using h, ih y⟩

theorem compact_chain (n : Nat) (l : List monomial) :
    List.Chain' (fun a b => meq n b a = false) (compact n l) := by
  cases l with
  | nil => simp [compact]
  | cons x xs => exact compactGo_chain n xs x

theorem compactGo_of_chain (n : Nat) : ∀ (l : List monomial) (prev : monomial),
    List.Chain' (fun a b => meq n b a = false) (prev :: l) → compactGo n prev l = l := by
  intro l
  induction l with
  | nil => intro prev _; simp [compactGo]
  | cons y ys ih =>
    intro prev h
    obtain ⟨h1, h2⟩ := List.chain'_cons.1 h
    simp only [compactGo]
    rw [if_neg (by simp [h1]), ih y h2]

theorem compact_of_chain (n : Nat) (l : List monomial)
    (h : List.Chain' (fun a b => meq n b a = false) l) : compact n l = l := by
  cases l with
  | nil => rfl
  | cons x xs => simp only [compact]; rw [compactGo_of_chain n xs x h]

instance : IsTotal monomial mrel :=
  ⟨fun a b => by
    have h := mle_total a b
    rcases Bool.or_eq_true_iff.mp h with h | h
    · exact Or.inl h
    · exact Or.inr h⟩

instance : IsTrans monomial mrel := ⟨fun a b c => mle_trans a b c⟩

/-- C6: `polynomial::normalize` is idempotent: normalizing a polynomial
twice gives the same monomial sequence as normalizing it once, for every
polynomial (so normalizing an already-normalized polynomial is a no-op). -/
theorem normalize_idempotent (n : Nat) (l : List monomial) :
    normalize n (normalize n l) = normalize n l := by
  unfold normalize
  have hsorted : List.Sorted mrel (List.insertionSort mrel l) :=
    List.sorted_insertionSort mrel l
  have hc : List.Sorted mrel (compact n (List.insertionSort mrel l)) :=
    List.Pairwise.sublist (compact_sublist n _) hsorted
  rw [List.Sorted.insertionSort_eq hc]
  exact compact_of_chain n _ (compact_chain n _)

/-! ## Lemmas about the `match` scan -/

theorem matchGo_some_acc (mi mj : monomial) : ∀ (l : List Nat) (x k : Nat),
    matchGo mi mj l (some x) = some k →
    k = x ∧ ∀ i ∈ l, bvget mi.values i = bvget mj.values i := by
  intro l
  induction l with
  | nil =>
    intro x k h
    simp only [matchGo] at h
    exact ⟨(Option.some.inj h).symm, by simp⟩
  | cons i rest ih =>
    intro x k h
    cases htv : bvget mi.values i <;> cases hov : bvget mj.values i
    · rw [show matchGo mi mj (i :: rest) (some x) = matchGo mi mj rest (some x) by
        simp [matchGo, htv, hov]] at h
      obtain ⟨hk, hall⟩ := ih x k h
      refine ⟨hk, fun j hj => ?_⟩
      rcases List.mem_cons.1 hj with rfl | hj
      · rw [htv, hov]
      · exact hall j hj
    · rw [show matchGo mi mj (i :: rest) (some x) = none by simp [matchGo, htv, hov]] at h
      cases h
    · rw [show matchGo mi mj (i :: rest) (some x) = none by simp [matchGo, htv, hov]] at h
      cases h
    · rw [show matchGo mi mj (i :: rest) (some x) = matchGo mi mj rest (some x) by
        simp [matchGo, htv, hov]] at h
      obtain ⟨hk, hall⟩ := ih x k h
      refine ⟨hk, fun j hj => ?_⟩
      rcases List.mem_cons.1 hj with rfl | hj
      · rw [htv, hov]
      · exact hall j hj

theorem matchGo_none_char (mi mj : monomial) : ∀ (l : List Nat) (k : Nat),
    matchGo mi mj l none = some k →
    k ∈ l ∧ bvget mi.values k = false ∧ bvget mj.values k = true ∧
      ∀ i ∈ l, i ≠ k → bvget mi.values i = bvget mj.values i := by
  intro l
  induction l with
  | nil => intro k h; simp only [matchGo] at h; cases h
  | cons i rest ih =>
    intro k h
    cases htv : bvget mi.values i <;> cases hov : bvget mj.values i
    · rw [show matchGo mi mj (i :: rest) none = matchGo mi mj rest none by
        simp [matchGo, htv, hov]] at h
      obtain ⟨hmem, hv1, hv2, hall⟩ := ih k h
      refine ⟨List.mem_cons_of_mem i hmem, hv1, hv2, fun j hj hne => ?_⟩
      rcases List.mem_cons.1 hj with rfl | hj
      · rw [htv, hov]
      · exact hall j hj hne
    · rw [show matchGo mi mj (i :: rest) none = matchGo mi mj rest (some i) by
        simp [matchGo, htv, hov]] at h
      obtain ⟨hk, hall⟩ := matchGo_some_acc mi mj rest i k h
      refine ⟨by rw [hk]; exact List.mem_cons_self _ _, by rw [hk]; exact htv,
        by rw [hk]; exact hov, fun j hj hne => ?_⟩
      rcases List.mem_cons.1 hj with rfl | hj
      · exact absurd hk.symm hne
      · exact hall j hj
    · rw [show matchGo mi mj (i :: rest) none = none by simp [matchGo, htv, hov]] at h
      cases h
    · rw [show matchGo mi mj (i :: rest) none = matchGo mi mj rest none by
        simp [matchGo, htv, hov]] at h
      obtain ⟨hmem, hv1, hv2, hall⟩ := ih k h
      refine ⟨List.mem_cons_of_mem i hmem, hv1, hv2, fun j hj hne => ?_⟩
      rcases List.mem_cons.1 hj with rfl | hj
      · rw [htv, hov]
      · exact hall j hj hne

/-- The full characterization of a successful `match` scan of the default
build: the returned position is below `n`, it is a `0 → 1` transition, and
the values agree at every other variable position. -/
theorem matchCore_char {n : Nat} {mi mj : monomial} {k : Nat}
    (h : matchCore n mi mj = some k) :
    k < n ∧ bvget mi.values k = false ∧ bvget mj.values k = true ∧
      ∀ i, i < n → i ≠ k → bvget mi.values i = bvget mj.values i := by
  obtain ⟨hmem, hv1, hv2, hall⟩ := matchGo_none_char mi mj (List.range n) k h
  exact ⟨List.mem_range.1 hmem, hv1, hv2,
    fun i hi hne => hall i (List.mem_range.2 hi) hne⟩

/-! ## Lemmas about `bvset` and `merged` -/

theorem bvget_bvset (v : bitvec) (k i : Nat) (b : Bool) :
    bvget (bvset v k b) i = if k = i ∧ k < v.length then b else bvget v i := by
  unfold bvget bvset
  rw [List.getD_eq_getElem?_getD, List.getD_eq_getElem?_getD, List.getElem?_set]
  by_cases hki : k = i
  · subst hki
    by_cases hkl : k < v.length
    · simp [hkl]
    · have hnone : v[k]? = none := List.getElem?_eq_none (by omega)
      simp [hkl, hnone]
  · simp [hki]

theorem maskedOnes_merged (n : Nat) (mi : monomial) (k : Nat)
    (hk : bvget mi.values k = false) :
    maskedOnes n (merged mi k) = maskedOnes n mi := by
  unfold maskedOnes merged
  apply List.countP_congr
  intro i _
  simp only
  rw [bvget_bvset]
  by_cases hki : k = i ∧ k < mi.mask.length
  · rw [if_pos hki]
    obtain ⟨rfl, -⟩ := hki
    simp [hk]
  · rw [if_neg hki]

/-- C5: when `mi.ones + 1 == mj.ones` and the match succeeds with position
`k`, `consensus` returns `true` and appends exactly one monomial — a copy
of `mi` with mask bit `k` cleared and the `ones` field unchanged (still the
popcount of its masked-in values); when the match fails, `consensus`
returns `false` and leaves `next` untouched. -/
theorem consensus_spec (n : Nat) (mi mj : monomial) (next : List monomial)
    (hones : mi.ones + 1 = mj.ones) (hinv : mi.ones = maskedOnes n mi) :
    (∀ k, matchCore n mi mj = some k →
      consensus n mi mj next =
        (true, next ++ [⟨mi.ones, bvset mi.mask k false, mi.values⟩]) ∧
      (merged mi k).ones = mi.ones ∧
      (merged mi k).ones = maskedOnes n (merged mi k)) ∧
    (matchCore n mi mj = none → consensus n mi mj next = (false, next)) := by
  constructor
  · intro k hk
    refine ⟨by simp [consensus, hk, merged], rfl, ?_⟩
    have hv := (matchCore_char hk).2.1
    rw [maskedOnes_merged n mi k hv]
    simpa [merged] using hinv
  · intro hnone
    simp [consensus, hnone]

/-! ## Sample monomials for witnesses -/

/-- The monomial parsed from the row `0` (one variable). -/
def mA : monomial := ⟨0, [true], [false]⟩

/-- The monomial parsed from the row `1` (one variable). -/
def mB : monomial := ⟨1, [true], [true]⟩

/-- Witness for `consensus_spec` at the concrete pair `0`, `1`. -/
theorem consensus_spec_witness :
    mA.ones + 1 = mB.ones ∧ mA.ones = maskedOnes 1 mA ∧
    ((∀ k, matchCore 1 mA mB = some k →
        consensus 1 mA mB [] =
          (true, [] ++ [⟨mA.ones, bvset mA.mask k false, mA.values⟩]) ∧
        (merged mA k).ones = mA.ones ∧
        (merged mA k).ones = maskedOnes 1 (merged mA k)) ∧
      (matchCore 1 mA mB = none → consensus 1 mA mB [] = (false, []))) :=
  ⟨by decide, by decide, consensus_spec 1 mA mB [] (by decide) (by decide)⟩

/-! ## C3: the `FIXED` `where` search misses position 0 -/

/-- C3: on the two monomials parsed from `0` and `1` (one variable, the
match precondition holds and the values differ exactly in masked-in
position 0), the generic build's `match` returns position 0, but the
`FIXED` build's `where` search — which starts at `where = 1` — never tests
position 0 and finds no position inside the 32-bit word, so it never
returns the differing position (in C the loop runs into undefined
oversized shifts instead of terminating). -/
theorem match_fixed_where_bug :
    matchCore 1 mA mB = some 0 ∧
    fixedMatch 32 (fixedOfRow 32 [false]) (fixedOfRow 32 [true]) = none ∧
    fixedMatch 32 (fixedOfRow 32 [false, false]) (fixedOfRow 32 [false, true]) = some 1 := by
  decide

/-! ## C4: the two bitvector orders differ -/

/-- C4 counterexample: on the 4-variable rows `0110` and `1001` the
generic `vector<bool>` order says `0110 < 1001` while the `FIXED` order
(`bits > other.bits`) says the opposite, so the two implementations do not
order bit-vectors by the same total order. -/
theorem bitvector_orders_differ :
    bvlt [false, true, true, false] [true, false, false, true] = true ∧
    fixedLt (fixedOfRow 32 [false, true, true, false])
      (fixedOfRow 32 [true, false, false, true]) = false := by
  decide

theorem lor_two_pow_eq_add {a i : Nat} (h : a < 2 ^ i) : a ||| 2 ^ i = a + 2 ^ i := by
  apply Nat.eq_of_testBit_eq
  intro j
  rw [Nat.testBit_lor, Nat.add_comm a (2 ^ i)]
  rcases Nat.lt_trichotomy j i with hj | rfl | hj
  · rw [Nat.testBit_two_pow_add_gt hj, Nat.testBit_two_pow, decide_eq_false (by omega)]
    simp
  · rw [Nat.testBit_two_pow_add_eq, Nat.testBit_eq_false_of_lt h, Nat.testBit_two_pow]
    simp
  · have h1 : 2 ^ i + a < 2 ^ j := by
      have h2 : 2 ^ i + a < 2 ^ (i + 1) := by
        rw [Nat.pow_succ]; omega
      exact lt_of_lt_of_le h2 (Nat.pow_le_pow_right (by norm_num) (by omega))
    have h2 : a.testBit j = false :=
      Nat.testBit_eq_false_of_lt
        (lt_of_lt_of_le h (Nat.pow_le_pow_right (by norm_num) (by omega)))
    rw [Nat.testBit_eq_false_of_lt h1, Nat.testBit_two_pow, decide_eq_false (by omega)]
    simp [h2]

theorem fset_eq_add {W acc i : Nat} (b : Bool) (hacc : acc < 2 ^ i) (hiW : i < W) :
    fset W acc i b = acc + (if b then 2 ^ i else 0) := by
  unfold fset
  have hland : acc &&& ((2 ^ W - 1) ^^^ (1 <<< i)) = acc := by
    apply Nat.eq_of_testBit_eq
    intro j
    rw [Nat.testBit_land]
    cases hj : acc.testBit j
    · simp
    · have hji : j < i := by
        by_contra hge
        have hlt : acc < 2 ^ j :=
          lt_of_lt_of_le hacc (Nat.pow_le_pow_right (by norm_num) (by omega))
        rw [Nat.testBit_eq_false_of_lt hlt] at hj
        cases hj
      have hM : ((2 ^ W - 1) ^^^ (1 <<< i)).testBit j = true := by
        rw [Nat.testBit_xor, Nat.testBit_two_pow_sub_one]
        have h1 : (1 <<< i).testBit j = false := by
          rw [Nat.shiftLeft_eq, one_mul, Nat.testBit_two_pow]
          simp; omega
        rw [h1, decide_eq_true (show j < W by omega)]
        rfl
      simp [hM]
  rw [hland]
  cases b
  · simp [Nat.zero_shiftLeft]
  · simp only [if_true]
    rw [Nat.shiftLeft_eq, one_mul]
    exact lor_two_pow_eq_add hacc

theorem fixedOfRowGo_eq (W : Nat) : ∀ (r : List Bool) (acc i : Nat),
    acc < 2 ^ i → i + r.length ≤ W →
    fixedOfRowGo W acc i r = acc + 2 ^ i * toNatLSB r := by
  intro r
  induction r with
  | nil => intro acc i _ _; simp [fixedOfRowGo, toNatLSB]
  | cons b rest ih =>
    intro acc i hacc hlen
    have hiW : i < W := by simp at hlen; omega
    simp only [fixedOfRowGo]
    rw [fset_eq_add b hacc hiW]
    have hacc' : acc + (if b then 2 ^ i else 0) < 2 ^ (i + 1) := by
      rw [Nat.pow_succ]
      cases b <;> simp <;> omega
    rw [ih _ (i + 1) hacc' (by simp at hlen ⊢; omega)]
    simp only [toNatLSB, Nat.pow_succ]
    cases b <;> simp <;> ring

theorem fixedOfRow_eq_toNatLSB (W : Nat) (r : List Bool) (h : r.length ≤ W) :
    fixedOfRow W r = toNatLSB r := by
  unfold fixedOfRow
  rw [fixedOfRowGo_eq W r 0 0 (by norm_num) (by omega)]
  simp

theorem valMSB_lt (r : List Bool) : valMSB r < 2 ^ r.length := by
  induction r with
  | nil => simp [valMSB]
  | cons b rest ih =>
    simp only [valMSB, List.length_cons, Nat.pow_succ]
    cases b <;> simp <;> omega

theorem bvlt_iff_valMSB : ∀ a b : bitvec, a.length = b.length →
    (bvlt a b = true ↔ valMSB a < valMSB b) := by
  intro a
  induction a with
  | nil =>
    intro b hb
    cases b with
    | nil => simp [bvlt, valMSB]
    | cons y ys => simp at hb
  | cons x xs ih =>
    intro b hb
    cases b with
    | nil => simp at hb
    | cons y ys =>
      have hlen : xs.length = ys.length := by simpa using hb
      have hx := valMSB_lt xs
      have hy := valMSB_lt ys
      cases x <;> cases y <;>
        simp only [bvlt, valMSB, Bool.not_false, Bool.not_true, Bool.true_and,
          Bool.false_and, Bool.and_false, Bool.false_or, Bool.or_false,
          Bool.true_or, beq_self_eq_true, Bool.true_and, if_true, if_false] <;>
        rw [hlen] at hx ⊢ <;> simp [ih ys hlen] <;> omega

/-- C4 (amended): the two bitvector implementations implement different
total orders — the generic `vector<bool>` `operator<` is lexicographic on
the bit sequence with index 0 most significant (equivalently, it compares
the index-0-most-significant numeric value `valMSB`), while the `FIXED`
`operator<` compares the parsed words by *descending* numeric value with
index 0 *least* significant; hence the two variants need not print the
primes in the same order. -/
theorem bitvector_orders_characterized :
    (∀ a b : bitvec, a.length = b.length → (bvlt a b = true ↔ valMSB a < valMSB b)) ∧
    (∀ (W : Nat) (r1 r2 : List Bool), r1.length ≤ W → r2.length ≤ W →
      (fixedLt (fixedOfRow W r1) (fixedOfRow W r2) = true ↔ toNatLSB r2 < toNatLSB r1)) := by
  constructor
  · exact bvlt_iff_valMSB
  · intro W r1 r2 h1 h2
    rw [fixedOfRow_eq_toNatLSB W r1 h1, fixedOfRow_eq_toNatLSB W r2 h2]
    simp [fixedLt]

/-- Witness for `bitvector_orders_characterized` at concrete rows. -/
theorem bitvector_orders_characterized_witness :
    ([false, true] : bitvec).length = ([true, false] : bitvec).length ∧
    (bvlt [false, true] [true, false] = true ↔ valMSB [false, true] < valMSB [true, false]) ∧
    ([false, true] : List Bool).length ≤ 32 ∧ ([true, false] : List Bool).length ≤ 32 ∧
    (fixedLt (fixedOfRow 32 [false, true]) (fixedOfRow 32 [true, false]) = true ↔
      toNatLSB [true, false] < toNatLSB [false, true]) :=
  ⟨by decide, bitvector_orders_characterized.1 _ _ (by decide), by decide, by decide,
    bitvector_orders_characterized.2 32 _ _ (by decide) (by decide)⟩

/-! ## C2: the optimized and all-pairs generators disagree -/

/-- C2: at the concrete 3-variable input polynomial
`{000, 100, 001, 010, 011}` the optimized block/slice generator and the
`NOPTIMIZE` all-pairs generator produce different normalized prime
polynomials (5 rows against 2): in the second round the optimized slice
search advances `begin_second_slice` past the whole second block while
looking for the first slice's mask (which does not occur there) and then
misses the matching slices of the later first slices. -/
theorem generate_opt_ne_nopt :
    quiennyOpt 3 [[false, false, false], [true, false, false], [false, false, true],
        [false, true, false], [false, true, true]] ≠
      quiennyNopt 3 [[false, false, false], [true, false, false], [false, false, true],
        [false, true, false], [false, true, true]] := by
  decide

/-! ## C10: blank-line inputs -/

/-- The monomial parsed from an empty first line (zero variables). -/
def emptyMono : monomial := ⟨0, [], []⟩

theorem parseLoop_blank : ∀ (j fuel : Nat), j ≤ fuel →
    parseLoop 0 fuel emptyMono (List.replicate j '\n') =
      .ok (List.replicate j emptyMono) := by
  intro j
  induction j with
  | zero =>
    intro fuel _
    cases fuel <;> rfl
  | succ j ih =>
    intro fuel hf
    obtain ⟨f, rfl⟩ : ∃ f, fuel = f + 1 := ⟨fuel - 1, by omega⟩
    show parseLoop 0 (f + 1) emptyMono ('\n' :: List.replicate j '\n') = _
    have hrem : parseRemaining 0 emptyMono ('\n' :: List.replicate j '\n') =
        .ok (some (emptyMono, List.replicate j '\n')) := rfl
    simp only [parseLoop, hrem]
    rw [ih f (by omega)]
    rfl

theorem quiennyRun_ok {cs : List Char} {n : Nat} {ms : List monomial}
    (h : polyParse cs = .ok (n, ms)) :
    quiennyRun cs = .ok ((normalize n
      (generateOpt n (genBound (normalize n ms)) (normalize n ms) []).2).map (printRow n)) := by
  unfold quiennyRun
  rw [h]

theorem compactGo_blank : ∀ j : Nat,
    compactGo 0 emptyMono (List.replicate j emptyMono) = [] := by
  intro j
  induction j with
  | zero => rfl
  | succ j ih =>
    show compactGo 0 emptyMono (emptyMono :: List.replicate j emptyMono) = []
    simp only [compactGo, if_pos (show meq 0 emptyMono emptyMono = true by decide)]
    exact ih

theorem normalize_blank (j : Nat) :
    normalize 0 (List.replicate (j + 1) emptyMono) = [emptyMono] := by
  unfold normalize
  have hsorted : List.Sorted mrel (List.replicate (j + 1) emptyMono) :=
    List.pairwise_replicate.2 (Or.inr (by decide))
  rw [List.Sorted.insertionSort_eq hsorted]
  show compact 0 (emptyMono :: List.replicate j emptyMono) = [emptyMono]
  simp only [compact, compactGo_blank]

/-- C10: an input whose first line is empty is accepted: the variable count
is fixed at 0, and an input of `k ≥ 1` blank lines parses into `k` empty
monomials and makes the program print exactly one empty output line and
exit with status 0. -/
theorem blank_lines_accepted (k : Nat) (hk : 1 ≤ k) :
    polyParse (List.replicate k '\n') = .ok (0, List.replicate k emptyMono) ∧
    quiennyRun (List.replicate k '\n') = .ok [[]] := by
  obtain ⟨j, rfl⟩ : ∃ j, k = j + 1 := ⟨k - 1, by omega⟩
  have hparse : polyParse (List.replicate (j + 1) '\n') =
      .ok (0, List.replicate (j + 1) emptyMono) := by
    show polyParse ('\n' :: List.replicate j '\n') = _
    have hfirst : parseFirstGo ('\n' :: List.replicate j '\n') ⟨0, [], []⟩ 0 =
        .ok (emptyMono, 0, List.replicate j '\n') := rfl
    simp only [polyParse, hfirst]
    rw [List.length_replicate, parseLoop_blank j j (le_refl j)]
    rfl
  refine ⟨hparse, ?_⟩
  rw [quiennyRun_ok hparse, normalize_blank]
  congr 1

/-- Witness for `blank_lines_accepted` at two blank lines. -/
theorem blank_lines_accepted_witness :
    1 ≤ 2 ∧
    (polyParse (List.replicate 2 '\n') = .ok (0, List.replicate 2 emptyMono) ∧
      quiennyRun (List.replicate 2 '\n') = .ok [[]]) :=
  ⟨by decide, blank_lines_accepted 2 (by decide)⟩

/-! ## Parser invariants -/

/-- The shape of a parsed monomial of `n` variables: full mask, values of
length `n`, and a `ones` field counting the true value bits. -/
def parsedShape (n : Nat) (m : monomial) : Prop :=
  m.mask = List.replicate n true ∧ m.values.length = n ∧ m.ones = m.values.count true

theorem parseFirstGo_shape : ∀ (cs : List Char) (m : monomial) (k : Nat),
    m.mask = List.replicate k true → m.values.length = k → m.ones = m.values.count true →
    ∀ {m' : monomial} {n : Nat} {rest : List Char},
      parseFirstGo cs m k = .ok (m', n, rest) → parsedShape n m' := by
  intro cs
  induction cs with
  | nil => intro m k _ _ _ m' n rest h; cases h
  | cons c cs ih =>
    intro m k hmask hvlen hones m' n rest h
    by_cases hnl : c = '\n'
    · rw [show parseFirstGo (c :: cs) m k = .ok (m, k, cs) by
        simp [parseFirstGo, hnl]] at h
      obtain ⟨rfl, rfl, rfl⟩ : m = m' ∧ k = n ∧ cs = rest := by
        injection h with h; injection h with h1 h2; injection h2 with h2 h3
        exact ⟨h1, h2, h3⟩
      exact ⟨hmask, hvlen, hones⟩
    · by_cases h1 : c = '1'
      · rw [show parseFirstGo (c :: cs) m k =
            parseFirstGo cs ⟨m.ones + 1, bvadd m.mask true, bvadd m.values true⟩ (k + 1) by
          simp [parseFirstGo, hnl, h1]] at h
        refine ih _ (k + 1) ?_ ?_ ?_ h
        · simp only [bvadd, hmask]
          rw [← List.replicate_succ']
        · simp [bvadd, hvlen]
        · simp [bvadd, List.count_append, hones]
      · by_cases h0 : c = '0'
        · by_cases hmax : k = maxVariables
          · rw [show parseFirstGo (c :: cs) m k = .error () by
              simp [parseFirstGo, hnl, h1, h0, hmax]] at h
            cases h
          · rw [show parseFirstGo (c :: cs) m k =
                parseFirstGo cs ⟨m.ones, bvadd m.mask true, bvadd m.values false⟩ (k + 1) by
              simp [parseFirstGo, hnl, h1, h0, hmax]] at h
            refine ih _ (k + 1) ?_ ?_ ?_ h
            · simp only [bvadd, hmask]
              rw [← List.replicate_succ']
            · simp [bvadd, hvlen]
            · simp [bvadd, List.count_append, hones]
        · rw [show parseFirstGo (c :: cs) m k = .error () by
            simp [parseFirstGo, hnl, h1, h0]] at h
          cases h

theorem take_set_succ : ∀ (l : List Bool) (i : Nat) (b : Bool), i < l.length →
    (l.set i b).take (i + 1) = l.take i ++ [b] := by
  intro l
  induction l with
  | nil => intro i b h; simp at h
  | cons x xs ih =>
    intro i b h
    cases i with
    | zero => simp
    | succ i =>
      simp only [List.set_cons_succ, List.take_succ_cons, List.cons_append]
      rw [ih i b (by simpa using h)]

theorem parseRemGo_shape (n : Nat) : ∀ (r : Nat) (cs : List Char) (m : monomial) (i : Nat),
    m.mask = List.replicate n true → m.values.length = n →
    m.ones = (m.values.take i).count true → i + r = n →
    ∀ {m' : monomial} {rest : List Char},
      parseRemGo m i r cs = .ok (m', rest) → parsedShape n m' := by
  intro r
  induction r with
  | zero =>
    intro cs m i hmask hvlen hones hin m' rest h
    cases cs with
    | nil => cases h
    | cons c cs =>
      by_cases hnl : c = '\n'
      · rw [show parseRemGo m i 0 (c :: cs) = .ok (m, cs) by
          simp [parseRemGo, hnl]] at h
        obtain ⟨rfl, rfl⟩ : m = m' ∧ cs = rest := by
          injection h with h; injection h with h1 h2; exact ⟨h1, h2⟩
        refine ⟨hmask, hvlen, ?_⟩
        rw [hones]
        congr 1
        rw [show i = m.values.length by omega, List.take_length]
      · rw [show parseRemGo m i 0 (c :: cs) = .error () by
          simp [parseRemGo, hnl]] at h
        cases h
  | succ r ih =>
    intro cs m i hmask hvlen hones hin m' rest h
    cases cs with
    | nil => cases h
    | cons c cs =>
      have hlt : i < n := by omega
      by_cases h1 : c = '1'
      · rw [show parseRemGo m i (r + 1) (c :: cs) =
            parseRemGo ⟨m.ones + 1, bvset m.mask i true, bvset m.values i true⟩
              (i + 1) r cs by simp [parseRemGo, h1]] at h
        refine ih cs _ (i + 1) ?_ ?_ ?_ (by omega) h
        · simp only [bvset, hmask]
          exact List.set_replicate_self
        · simp [bvset, hvlen]
        · simp only [bvset]
          rw [take_set_succ _ _ _ (by omega), List.count_append, hones]
          simp [List.count_singleton]
      · by_cases h0 : c = '0'
        · rw [show parseRemGo m i (r + 1) (c :: cs) =
              parseRemGo ⟨m.ones, bvset m.mask i true, bvset m.values i false⟩
                (i + 1) r cs by simp [parseRemGo, h1, h0]] at h
          refine ih cs _ (i + 1) ?_ ?_ ?_ (by omega) h
          · simp only [bvset, hmask]
            exact List.set_replicate_self
          · simp [bvset, hvlen]
          · simp only [bvset]
            rw [take_set_succ _ _ _ (by omega), List.count_append, hones]
            simp [List.count_singleton]
        · rw [show parseRemGo m i (r + 1) (c :: cs) = .error () by
            simp [parseRemGo, h1, h0]] at h
          cases h

theorem parseLoop_shape (n : Nat) : ∀ (fuel : Nat) (m : monomial) (cs : List Char)
    (ms : List monomial), parsedShape n m →
    parseLoop n fuel m cs = .ok ms → ∀ m' ∈ ms, parsedShape n m' := by
  intro fuel
  induction fuel with
  | zero =>
    intro m cs ms _ h
    cases cs with
    | nil =>
      obtain rfl : ([] : List monomial) = ms := by
        injection h
      intro m' hm'; cases hm'
    | cons c cs => cases h
  | succ fuel ih =>
    intro m cs ms hm h
    cases cs with
    | nil =>
      rw [show parseLoop n (fuel + 1) m [] = .ok [] by simp [parseLoop, parseRemaining]] at h
      obtain rfl : ([] : List monomial) = ms := by injection h
      intro m' hm'; cases hm'
    | cons c cs =>
      simp only [parseLoop, parseRemaining] at h
      cases hgo : parseRemGo ⟨0, m.mask, m.values⟩ 0 n (c :: cs) with
      | error e => rw [hgo] at h; cases h
      | ok res =>
        obtain ⟨m'', rest⟩ := res
        rw [hgo] at h
        simp only [Except.map] at h
        cases hloop : parseLoop n fuel m'' rest with
        | error e => rw [hloop] at h; cases h
        | ok tail =>
          rw [hloop] at h
          simp only [Except.map] at h
          obtain rfl : m'' :: tail = ms := by injection h
          have hshape'' : parsedShape n m'' := by
            refine parseRemGo_shape n n (c :: cs) ⟨0, m.mask, m.values⟩ 0 ?_ ?_ ?_
              (by omega) hgo
            · exact hm.1
            · exact hm.2.1
            · simp
          intro m' hm'
          rcases List.mem_cons.1 hm' with rfl | hm'
          · exact hshape''
          · exact ih m'' rest tail hshape'' hloop m' hm'

theorem polyParse_shape {cs : List Char} {n : Nat} {ms : List monomial}
    (h : polyParse cs = .ok (n, ms)) : ∀ m ∈ ms, parsedShape n m := by
  cases cs with
  | nil =>
    obtain ⟨rfl, rfl⟩ : 0 = n ∧ ([] : List monomial) = ms := by
      simp only [polyParse] at h
      injection h with h; injection h with h1 h2; exact ⟨h1, h2⟩
    intro m hm; cases hm
  | cons c cs =>
    simp only [polyParse] at h
    cases hfirst : parseFirstGo (c :: cs) ⟨0, [], []⟩ 0 with
    | error e => rw [hfirst] at h; cases h
    | ok res =>
      obtain ⟨m1, n1, rest⟩ := res
      rw [hfirst] at h
      simp only [Except.map] at h
      cases hloop : parseLoop n1 rest.length m1 rest with
      | error e => rw [hloop] at h; cases h
      | ok tail =>
        rw [hloop] at h
        simp only [Except.map] at h
        obtain ⟨rfl, rfl⟩ : n1 = n ∧ m1 :: tail = ms := by
          injection h with h; injection h with h1 h2; exact ⟨h1, h2⟩
        have hm1 : parsedShape n1 m1 :=
          parseFirstGo_shape (c :: cs) ⟨0, [], []⟩ 0 rfl rfl rfl hfirst
        intro m hm
        rcases List.mem_cons.1 hm with rfl | hm
        · exact hm1
        · exact parseLoop_shape n1 rest.length m1 rest tail hm1 hloop m hm

/-! ## C9: the don't-care invariant -/

theorem parsedShape_good {n : Nat} {m : monomial} (h : parsedShape n m) : goodM m := by
  intro i hmask
  have hge : n ≤ i := by
    by_contra hlt
    push_neg at hlt
    rw [h.1] at hmask
    have htrue : bvget (List.replicate n true) i = true := by
      unfold bvget
      rw [List.getD_eq_getElem _ _ (by simpa using hlt)]
      exact List.getElem_replicate true _
    rw [htrue] at hmask
    cases hmask
  unfold bvget
  rw [List.getD_eq_getElem?_getD, List.getElem?_eq_none (by rw [h.2.1]; omega)]
  rfl

theorem merged_good {n : Nat} {mi mj : monomial} {k : Nat}
    (hg : goodM mi) (h : matchCore n mi mj = some k) : goodM (merged mi k) := by
  intro i hmask
  simp only [merged] at hmask ⊢
  rw [bvget_bvset] at hmask
  by_cases hc : k = i ∧ k < mi.mask.length
  · obtain ⟨rfl, -⟩ := hc
    exact (matchCore_char h).2.1
  · rw [if_neg hc] at hmask
    exact hg i hmask

theorem meq_iff_pair {n : Nat} {a b : monomial} (ha : goodM a) (hb : goodM b)
    (hal : a.values.length = n) (hbl : b.values.length = n) :
    (meq n a b = true ↔ (a.mask = b.mask ∧ a.values = b.values)) := by
  constructor
  · intro h
    simp only [meq, Bool.and_eq_true, beq_iff_eq, List.all_eq_true] at h
    obtain ⟨hm, hv⟩ := h
    refine ⟨hm, ?_⟩
    apply List.ext_getElem (by omega)
    intro i h1 h2
    have hi : i < n := by omega
    have hvi := hv i (List.mem_range.2 hi)
    have hget : ∀ (l : bitvec) (hl : i < l.length), l[i] = bvget l i := by
      intro l hl
      rw [bvget, List.getD_eq_getElem _ _ hl]
    rw [hget _ h1, hget _ h2]
    cases hmi : bvget a.mask i
    · rw [ha i hmi, hb i (by rw [← hm]; exact hmi)]
    · rw [hmi] at hvi
      simpa using hvi
  · intro hpair
    obtain ⟨hm, hv⟩ := hpair
    simp only [meq, Bool.and_eq_true, beq_iff_eq, List.all_eq_true]
    exact ⟨hm, fun i _ => by rw [hv]; simp⟩

/-- C9: every monomial a polynomial ever holds — parsed, or produced by
`consensus` from a monomial satisfying the invariant — has `values[i] =
false` at every don't-care position (`mask[i] = false`), and on such
monomials the mask-aware equality coincides with bitwise equality of the
`(mask, values)` pair. -/
theorem dontcare_invariant :
    (∀ (cs : List Char) (n : Nat) (ms : List monomial),
      polyParse cs = .ok (n, ms) → ∀ m ∈ ms, goodM m) ∧
    (∀ (n : Nat) (mi mj : monomial) (k : Nat),
      goodM mi → matchCore n mi mj = some k → goodM (merged mi k)) ∧
    (∀ (n : Nat) (a b : monomial), goodM a → goodM b →
      a.values.length = n → b.values.length = n →
      (meq n a b = true ↔ (a.mask = b.mask ∧ a.values = b.values))) :=
  ⟨fun _ _ _ h m hm => parsedShape_good (polyParse_shape h m hm),
   fun _ _ _ _ hg h => merged_good hg h,
   fun _ _ _ ha hb hal hbl => meq_iff_pair ha hb hal hbl⟩

/-- Witness for `dontcare_invariant` at concrete inputs. -/
theorem dontcare_invariant_witness :
    (polyParse ['0', '\n'] = .ok (1, [mA]) ∧ ∀ m ∈ [mA], goodM m) ∧
    (goodM mA ∧ matchCore 1 mA mB = some 0 ∧ goodM (merged mA 0)) ∧
    (goodM mA ∧ goodM mB ∧ mA.values.length = 1 ∧ mB.values.length = 1 ∧
      (meq 1 mA mB = true ↔ (mA.mask = mB.mask ∧ mA.values = mB.values))) := by
  have hgA : goodM mA := by
    intro i h
    cases i <;> rfl
  have hgB : goodM mB := by
    intro i h
    cases i with
    | zero => exact absurd h (by decide)
    | succ j => rfl
  exact ⟨⟨rfl, dontcare_invariant.1 ['0', '\n'] 1 [mA] rfl⟩,
    ⟨hgA, rfl, dontcare_invariant.2.1 1 mA mB 0 hgA rfl⟩,
    ⟨hgA, hgB, rfl, rfl, dontcare_invariant.2.2 1 mA mB hgA hgB rfl rfl⟩⟩

/-! ## C7: duplicates survive `parse` and are collapsed by `normalize` -/

/-- The monomial parsed from the row `10`. -/
def dupMono : monomial := ⟨1, [true, true], [true, false]⟩

/-- C7 counterexample: parsing the input `10\n10\n` stores two equal
monomials, so after `polynomial::parse` (and before `normalize`) the
polynomial does contain duplicates — `parse` itself collapses nothing. -/
theorem parse_keeps_duplicates :
    polyParse ['1', '0', '\n', '1', '0', '\n'] = .ok (2, [dupMono, dupMono]) ∧
    meq 2 dupMono dupMono = true ∧
    ¬ ([dupMono, dupMono] : List monomial).Pairwise (fun a b => meq 2 a b = false) := by
  refine ⟨rfl, by decide, ?_⟩
  intro h
  have hfalse := (List.pairwise_cons.1 h).1 dupMono (List.mem_cons_self _ _)
  exact absurd hfalse (by decide)

theorem meq_refl (n : Nat) (a : monomial) : meq n a a = true := by
  simp [meq]

theorem shape_eq_of_meq {n : Nat} {a b : monomial} (ha : parsedShape n a)
    (hb : parsedShape n b) (h : meq n a b = true) : a = b := by
  obtain ⟨hm, hv⟩ :=
    (meq_iff_pair (parsedShape_good ha) (parsedShape_good hb) ha.2.1 hb.2.1).1 h
  have ho : a.ones = b.ones := by rw [ha.2.2, hb.2.2, hv]
  cases a; cases b; simp_all

theorem chain'_imp_mem {α : Type} {R S : α → α → Prop} :
    ∀ l : List α, (∀ a ∈ l, ∀ b ∈ l, R a b → S a b) →
      List.Chain' R l → List.Chain' S l := by
  intro l
  induction l with
  | nil => intro _ _; exact List.chain'_nil
  | cons x xs ih =>
    intro himp hch
    cases xs with
    | nil => exact List.chain'_singleton x
    | cons y ys =>
      obtain ⟨hxy, hrest⟩ := List.chain'_cons.1 hch
      refine List.chain'_cons.2 ⟨himp x (by simp) y (by simp) hxy, ?_⟩
      exact ih
        (fun a ha b hb hr =>
          himp a (List.mem_cons_of_mem _ ha) b (List.mem_cons_of_mem _ hb) hr)
        hrest

theorem compactGo_chain_sorted (n : Nat) : ∀ (l : List monomial) (prev : monomial),
    List.Pairwise mrel (prev :: l) →
    List.Chain' (fun a b => mrel a b ∧ meq n b a = false) (prev :: compactGo n prev l) := by
  intro l
  induction l with
  | nil => intro prev _; simp [compactGo]
  | cons y ys ih =>
    intro prev hp
    obtain ⟨hhead, htail⟩ := List.pairwise_cons.1 hp
    by_cases h : meq n y prev = true
    · simp only [compactGo, if_pos h]
      apply ih prev
      exact List.pairwise_cons.2
        ⟨fun b hb => hhead b (List.mem_cons_of_mem _ hb), (List.pairwise_cons.1 htail).2⟩
    · simp only [compactGo, if_neg h]
      exact List.chain'_cons.2
        ⟨⟨hhead y (List.mem_cons_self _ _), by simpa using h⟩, ih y htail⟩

/-- C7 (amended): `polynomial::parse` appends every parsed row including
duplicate rows; it is the subsequent `normalize` that collapses them — for
every successfully parsed input, after `parse` followed by `normalize` the
polynomial contains no two equal monomials. -/
theorem parse_then_normalize_nodup (cs : List Char) (n : Nat) (ms : List monomial)
    (h : polyParse cs = .ok (n, ms)) :
    (normalize n ms).Pairwise (fun a b => meq n a b = false) := by
  have hshapes := polyParse_shape h
  have hperm := List.perm_insertionSort mrel ms
  have hsortShapes : ∀ m ∈ List.insertionSort mrel ms, parsedShape n m :=
    fun m hm => hshapes m (hperm.mem_iff.mp hm)
  have hsorted : List.Sorted mrel (List.insertionSort mrel ms) :=
    List.sorted_insertionSort mrel ms
  have hcompShapes : ∀ m ∈ compact n (List.insertionSort mrel ms), parsedShape n m :=
    fun m hm => hsortShapes m ((compact_sublist n _).subset hm)
  have hchain : List.Chain' (fun a b => mrel a b ∧ meq n b a = false)
      (compact n (List.insertionSort mrel ms)) := by
    cases hsv : List.insertionSort mrel ms with
    | nil => simp [compact]
    | cons x xs =>
      have hsorted' : List.Pairwise mrel (x :: xs) := hsv ▸ hsorted
      exact compactGo_chain_sorted n xs x hsorted'
  have hchainlt : List.Chain' (fun a b => mlt a b = true)
      (compact n (List.insertionSort mrel ms)) := by
    refine chain'_imp_mem _ ?_ hchain
    intro a _ b _ hr
    obtain ⟨hab, hne⟩ := hr
    cases hlt : mlt a b
    · exfalso
      have hba : mlt b a = false := by simpa [mrel, mle] using hab
      have heq : a = b := mlt_conn hlt hba
      rw [heq, meq_refl] at hne
      cases hne
    · rfl
  haveI : IsTrans monomial (fun a b => mlt a b = true) := ⟨fun a b c => mlt_trans⟩
  have hpw : (compact n (List.insertionSort mrel ms)).Pairwise
      (fun a b => mlt a b = true) := List.chain'_iff_pairwise.1 hchainlt
  show (compact n (List.insertionSort mrel ms)).Pairwise (fun a b => meq n a b = false)
  refine List.Pairwise.imp_of_mem ?_ hpw
  intro a b ha hb hab
  cases hm : meq n a b
  · rfl
  · exfalso
    have heq : a = b := shape_eq_of_meq (hcompShapes a ha) (hcompShapes b hb) hm
    rw [heq, mlt_irrefl] at hab
    cases hab

/-- Witness for `parse_then_normalize_nodup` at the duplicate input. -/
theorem parse_then_normalize_nodup_witness :
    polyParse ['1', '0', '\n', '1', '0', '\n'] = .ok (2, [dupMono, dupMono]) ∧
    (normalize 2 [dupMono, dupMono]).Pairwise (fun a b => meq 2 a b = false) :=
  ⟨rfl, parse_then_normalize_nodup ['1', '0', '\n', '1', '0', '\n'] 2 [dupMono, dupMono] rfl⟩

/-! ## Loop-structure lemmas for the optimized generator -/

theorem extendW_le (p : List monomial) (q : monomial → Bool) (limit : Nat) :
    ∀ (fuel e : Nat), e ≤ extendW p q limit fuel e := by
  intro fuel
  induction fuel with
  | zero => intro e; simp [extendW]
  | succ fuel ih =>
    intro e
    by_cases hc : (decide (e < limit) && q (mget p e)) = true
    · rw [extendW, if_pos hc]
      exact le_trans (Nat.le_succ e) (ih (e + 1))
    · rw [extendW, if_neg hc]

theorem extendW_le_limit (p : List monomial) (q : monomial → Bool) (limit : Nat) :
    ∀ (fuel e : Nat), e ≤ limit → extendW p q limit fuel e ≤ limit := by
  intro fuel
  induction fuel with
  | zero => intro e he; simpa [extendW] using he
  | succ fuel ih =>
    intro e he
    by_cases hc : (decide (e < limit) && q (mget p e)) = true
    · rw [extendW, if_pos hc]
      have he' : e < limit := by
        rw [Bool.and_eq_true] at hc
        simpa using hc.1
      exact ih (e + 1) (by omega)
    · rw [extendW, if_neg hc]
      exact he

theorem extendW_holds (p : List monomial) (q : monomial → Bool) (limit : Nat) :
    ∀ (fuel e i : Nat), e ≤ i → i < extendW p q limit fuel e →
      q (mget p i) = true := by
  intro fuel
  induction fuel with
  | zero =>
    intro e i h1 h2
    rw [extendW] at h2
    omega
  | succ fuel ih =>
    intro e i h1 h2
    by_cases hc : (decide (e < limit) && q (mget p e)) = true
    · rw [extendW, if_pos hc] at h2
      rcases Nat.eq_or_lt_of_le h1 with rfl | hlt
      · rw [Bool.and_eq_true] at hc
        exact hc.2
      · exact ih (e + 1) i hlt h2
    · rw [extendW, if_neg hc] at h2
      omega

theorem extendW_stop (p : List monomial) (q : monomial → Bool) (limit : Nat) :
    ∀ (fuel e : Nat), limit ≤ fuel + e →
      limit ≤ extendW p q limit fuel e ∨
        q (mget p (extendW p q limit fuel e)) = false := by
  intro fuel
  induction fuel with
  | zero =>
    intro e h
    rw [extendW]
    left
    omega
  | succ fuel ih =>
    intro e h
    by_cases hc : (decide (e < limit) && q (mget p e)) = true
    · rw [extendW, if_pos hc]
      exact ih (e + 1) (by omega)
    · rw [extendW, if_neg hc]
      cases hd : decide (e < limit) with
      | false =>
        left
        have : ¬ e < limit := of_decide_eq_false hd
        omega
      | true =>
        right
        cases hq : q (mget p e)
        · rfl
        · exact absurd (by rw [hd, hq]; rfl) hc

theorem mem_cross {n : Nat} {p : List monomial} {iB iE jB jE i j : Nat} :
    (i, j) ∈ cross n p iB iE jB jE ↔
      iB ≤ i ∧ i < iE ∧ jB ≤ j ∧ j < jE ∧
        (consensusO n (mget p i) (mget p j)).isSome = true := by
  unfold cross
  rw [List.mem_flatMap]
  constructor
  · rintro ⟨i', hi', hmem⟩
    rw [List.mem_map] at hmem
    obtain ⟨j', hj', heq⟩ := hmem
    obtain ⟨rfl, rfl⟩ : i' = i ∧ j' = j := by
      injection heq with h1 h2
      exact ⟨h1, h2⟩
    rw [List.mem_filter] at hj'
    obtain ⟨hjr, hjs⟩ := hj'
    rw [List.mem_range'_1] at hi' hjr
    exact ⟨hi'.1, by omega, hjr.1, by omega, hjs⟩
  · rintro ⟨h1, h2, h3, h4, h5⟩
    refine ⟨i, ?_, ?_⟩
    · rw [List.mem_range'_1]
      omega
    · rw [List.mem_map]
      refine ⟨j, List.mem_filter.2 ⟨?_, h5⟩, rfl⟩
      rw [List.mem_range'_1]
      omega

/-- What the loop structure guarantees for every recorded pair: ordered
in-range indices, equal masks, adjacent `ones` counts, and a successful
`consensus`. -/
def goodPair (n : Nat) (p : List monomial) (pr : Nat × Nat) : Prop :=
  pr.1 < pr.2 ∧ pr.2 < p.length ∧
    (mget p pr.1).mask = (mget p pr.2).mask ∧
    (mget p pr.1).ones + 1 = (mget p pr.2).ones ∧
    (consensusO n (mget p pr.1) (mget p pr.2)).isSome = true

theorem slicesLoop_good (n : Nat) (p : List monomial) (efb esb : Nat) (o1 o2 : Nat)
    (ho12 : o1 + 1 = o2) (hesb : esb ≤ p.length)
    (hO2 : ∀ idx, efb ≤ idx → idx < esb → (mget p idx).ones = o2) :
    ∀ (fuel bfs bss : Nat), efb ≤ bss → bss ≤ esb →
      (∀ idx, bfs ≤ idx → idx < efb → (mget p idx).ones = o1) →
      ∀ pr ∈ slicesLoop n p efb esb fuel bfs bss, goodPair n p pr := by
  intro fuel
  induction fuel with
  | zero =>
    intro bfs bss _ _ _ pr hpr
    simp [slicesLoop] at hpr
  | succ fuel ih =>
    intro bfs bss hbss hbss2 hO1 pr hpr
    by_cases hguard : bfs < efb
    · simp only [slicesLoop, if_pos hguard] at hpr
      rw [List.mem_append] at hpr
      have hefs_lb : bfs + 1 ≤
          extendW p (fun m => m.mask == (mget p bfs).mask) efb (efb - (bfs + 1)) (bfs + 1) :=
        extendW_le p _ efb _ (bfs + 1)
      have hefs_ub :
          extendW p (fun m => m.mask == (mget p bfs).mask) efb (efb - (bfs + 1)) (bfs + 1)
            ≤ efb :=
        extendW_le_limit p _ efb _ (bfs + 1) (by omega)
      have hbss'_lb : bss ≤
          extendW p (fun m => !(m.mask == (mget p bfs).mask)) esb (esb - bss) bss :=
        extendW_le p _ esb _ bss
      have hbss'_ub :
          extendW p (fun m => !(m.mask == (mget p bfs).mask)) esb (esb - bss) bss ≤ esb :=
        extendW_le_limit p _ esb _ bss hbss2
      rcases hpr with hcross | hrec
      · set efs :=
          extendW p (fun m => m.mask == (mget p bfs).mask) efb (efb - (bfs + 1)) (bfs + 1)
          with hefs
        set bss' :=
          extendW p (fun m => !(m.mask == (mget p bfs).mask)) esb (esb - bss) bss
          with hbssp
        by_cases hbv : bss' < esb
        · rw [if_pos hbv] at hcross
          obtain ⟨i, j⟩ := pr
          obtain ⟨hi1, hi2, hj1, hj2, hsucc⟩ := mem_cross.1 hcross
          have hess_ub :
              extendW p (fun m => m.mask == (mget p bfs).mask) esb (esb - (bss' + 1))
                (bss' + 1) ≤ esb :=
            extendW_le_limit p _ esb _ (bss' + 1) (by omega)
          have hmaski : (mget p i).mask = (mget p bfs).mask := by
            rcases Nat.eq_or_lt_of_le hi1 with rfl | hlt
            · rfl
            · have hq := extendW_holds p _ efb _ (bfs + 1) i hlt hi2
              simpa using hq
          have hmaskj : (mget p j).mask = (mget p bfs).mask := by
            rcases Nat.eq_or_lt_of_le hj1 with rfl | hlt
            · have hstop := extendW_stop p
                (fun m => !(m.mask == (mget p bfs).mask)) esb (esb - bss) bss (by omega)
              rw [← hbssp] at hstop
              rcases hstop with hge | hq
              · omega
              · simpa using hq
            · have hq := extendW_holds p _ esb _ (bss' + 1) j hlt hj2
              simpa using hq
          refine ⟨by omega, by omega, ?_, ?_, hsucc⟩
          · rw [hmaski, hmaskj]
          · rw [hO1 i hi1 (by omega), hO2 j (by omega) (by omega)]
            exact ho12
        · rw [if_neg hbv] at hcross
          cases hcross
      · refine ih _ _ (by omega) hbss'_ub ?_ pr hrec
        intro idx hidx1 hidx2
        exact hO1 idx (by omega) hidx2
    · simp only [slicesLoop, if_neg hguard] at hpr
      cases hpr

theorem blocksLoop_good (n : Nat) (p : List monomial) :
    ∀ (fuel bfb efb : Nat),
      (∀ idx, bfb ≤ idx → idx < efb → (mget p idx).ones = (mget p bfb).ones) →
      ∀ pr ∈ blocksLoop n p fuel bfb efb, goodPair n p pr := by
  intro fuel
  induction fuel with
  | zero =>
    intro bfb efb _ pr hpr
    simp [blocksLoop] at hpr
  | succ fuel ih =>
    intro bfb efb hO1 pr hpr
    by_cases hguard : efb < p.length
    · simp only [blocksLoop, if_pos hguard] at hpr
      rw [List.mem_append] at hpr
      have hesb_lb : efb + 1 ≤
          extendW p (fun m => m.ones == (mget p efb).ones) p.length
            (p.length - (efb + 1)) (efb + 1) :=
        extendW_le p _ p.length _ (efb + 1)
      have hesb_ub :
          extendW p (fun m => m.ones == (mget p efb).ones) p.length
            (p.length - (efb + 1)) (efb + 1) ≤ p.length :=
        extendW_le_limit p _ p.length _ (efb + 1) (by omega)
      set esb :=
        extendW p (fun m => m.ones == (mget p efb).ones) p.length
          (p.length - (efb + 1)) (efb + 1) with hesb
      have hO2 : ∀ idx, efb ≤ idx → idx < esb → (mget p idx).ones = (mget p efb).ones := by
        intro idx h1 h2
        rcases Nat.eq_or_lt_of_le h1 with rfl | hlt
        · rfl
        · have hq := extendW_holds p _ p.length _ (efb + 1) idx hlt h2
          simpa using hq
      rcases hpr with hslice | hrec
      · by_cases hadj : (mget p bfb).ones + 1 = (mget p efb).ones
        · rw [if_pos (by simpa using hadj)] at hslice
          exact slicesLoop_good n p efb esb ((mget p bfb).ones) ((mget p efb).ones)
            hadj hesb_ub hO2 efb bfb efb (le_refl efb) (by omega) hO1 pr hslice
        · rw [if_neg (by simpa using hadj)] at hslice
          cases hslice
      · exact ih efb esb hO2 pr hrec
    · simp only [blocksLoop, if_neg hguard] at hpr
      cases hpr

theorem succPairsOpt_good (n : Nat) (p : List monomial) :
    ∀ pr ∈ succPairsOpt n p, goodPair n p pr := by
  intro pr hpr
  unfold succPairsOpt at hpr
  refine blocksLoop_good n p p.length 0 _ ?_ pr hpr
  intro idx h0 hlt
  rcases Nat.eq_zero_or_pos idx with rfl | hpos
  · rfl
  · have hq := extendW_holds p (fun m => m.ones == (mget p 0).ones) p.length
      (p.length - 1) 1 idx hpos hlt
    simpa using hq

/-! ## Termination of the round loop (C8) -/

theorem maxOnes_le (B : Nat) : ∀ (l : List monomial), (∀ m ∈ l, m.ones ≤ B) →
    maxOnes l ≤ B := by
  intro l
  induction l with
  | nil => intro _; simp [maxOnes]
  | cons x xs ih =>
    intro h
    have h1 := h x (List.mem_cons_self _ _)
    have h2 := ih fun m hm => h m (List.mem_cons_of_mem _ hm)
    simp only [maxOnes, List.foldr_cons] at h2 ⊢
    omega

theorem le_maxOnes : ∀ (p : List monomial) (m : monomial), m ∈ p → m.ones ≤ maxOnes p := by
  intro p
  induction p with
  | nil => intro m hm; cases hm
  | cons x xs ih =>
    intro m hm
    rcases List.mem_cons.1 hm with rfl | hm
    · simp only [maxOnes, List.foldr_cons]
      omega
    · have := ih m hm
      simp only [maxOnes, List.foldr_cons] at this ⊢
      omega

theorem mget_mem {p : List monomial} {i : Nat} (h : i < p.length) : mget p i ∈ p := by
  unfold mget
  rw [List.getD_eq_getElem _ _ h]
  exact List.getElem_mem h

theorem mem_nextRound {n : Nat} {p : List monomial} {pairs : List (Nat × Nat)}
    {m : monomial} (h : m ∈ nextRound n p pairs) :
    ∃ pr ∈ pairs, consensusO n (mget p pr.1) (mget p pr.2) = some m := by
  simpa [nextRound, List.mem_filterMap] using h

theorem consensusO_eq_some {n : Nat} {mi mj m : monomial}
    (h : consensusO n mi mj = some m) :
    ∃ k, matchCore n mi mj = some k ∧ m = merged mi k := by
  unfold consensusO at h
  cases hm : matchCore n mi mj with
  | none => rw [hm] at h; cases h
  | some k =>
    rw [hm] at h
    simp only [Option.map_some'] at h
    exact ⟨k, rfl, (Option.some.inj h).symm⟩

theorem mem_normalize {n : Nat} {l : List monomial} {m : monomial}
    (h : m ∈ normalize n l) : m ∈ l := by
  unfold normalize at h
  have h1 : m ∈ List.insertionSort mrel l := (compact_sublist n _).subset h
  exact ((List.perm_insertionSort mrel l).mem_iff).mp h1

theorem stepOpt_measure (n : Nat) (p : List monomial) (hp : p ≠ []) :
    genBound (stepOpt n p) < genBound p := by
  have hp' : p.isEmpty = false := by
    cases hq : p.isEmpty
    · rfl
    · exact absurd (List.isEmpty_iff.1 hq) hp
  by_cases hempty : stepOpt n p = []
  · rw [hempty]
    simp [genBound, hp']
  · have hbound : ∀ m ∈ stepOpt n p, m.ones + 1 ≤ maxOnes p := by
      intro m hm
      have hmem : m ∈ nextRound n p (succPairsOpt n p) := mem_normalize hm
      obtain ⟨pr, hpr, hcons⟩ := mem_nextRound hmem
      have hgood := succPairsOpt_good n p pr hpr
      obtain ⟨k, hk, rfl⟩ := consensusO_eq_some hcons
      have h2 := le_maxOnes p (mget p pr.2) (mget_mem hgood.2.1)
      have h3 : (merged (mget p pr.1) k).ones = (mget p pr.1).ones := rfl
      have h4 := hgood.2.2.2.1
      omega
    have hse : (stepOpt n p).isEmpty = false := by
      cases hq : (stepOpt n p).isEmpty
      · rfl
      · exact absurd (List.isEmpty_iff.1 hq) hempty
    obtain ⟨m0, hm0⟩ := List.exists_mem_of_ne_nil _ hempty
    have h1 : 1 ≤ maxOnes p := by
      have := hbound m0 hm0
      omega
    have h2 : maxOnes (stepOpt n p) ≤ maxOnes p - 1 :=
      maxOnes_le _ _ fun m hm => by have := hbound m hm; omega
    simp only [genBound, hse, hp', if_neg Bool.false_ne_true]
    omega

theorem generateOpt_leftover (n : Nat) : ∀ (fuel : Nat) (p acc : List monomial),
    genBound p ≤ fuel → (generateOpt n fuel p acc).1 = [] := by
  intro fuel
  induction fuel with
  | zero =>
    intro p acc h
    have hp : p.isEmpty = true := by
      cases hq : p.isEmpty
      · rw [genBound, hq] at h
        simp at h
      · rfl
    simp only [generateOpt]
    exact List.isEmpty_iff.1 hp
  | succ fuel ih =>
    intro p acc h
    by_cases hp : p.isEmpty = true
    · simp only [generateOpt, if_pos hp]
      exact List.isEmpty_iff.1 hp
    · simp only [generateOpt, if_neg hp]
      apply ih
      have hne : p ≠ [] := fun he => hp (by rw [he]; rfl)
      have := stepOpt_measure n p hne
      unfold stepOpt at this
      omega

theorem stepOpt_iterate (n : Nat) : ∀ (B : Nat) (p : List monomial),
    genBound p ≤ B → ∃ r, (stepOpt n)^[r] p = [] := by
  intro B
  induction B with
  | zero =>
    intro p h
    refine ⟨0, ?_⟩
    cases hq : p.isEmpty
    · rw [genBound, hq] at h
      simp at h
    · exact List.isEmpty_iff.1 hq
  | succ B ih =>
    intro p h
    by_cases hp : p = []
    · exact ⟨0, hp⟩
    · obtain ⟨r, hr⟩ := ih (stepOpt n p) (by have := stepOpt_measure n p hp; omega)
      exact ⟨r + 1, by rw [Function.iterate_succ_apply]; exact hr⟩

/-- C8: the round loop of the default `generate` terminates — running it
with fuel `genBound p` leaves an empty polynomial (the loop's exit
condition), and, equivalently, iterating the per-round transformation
(`next.normalize()` becoming the new `p`) reaches the empty polynomial
after finitely many rounds, for every polynomial. -/
theorem generate_terminates (n : Nat) (p : List monomial) :
    (generateOpt n (genBound p) p []).1 = [] ∧ ∃ r, (stepOpt n)^[r] p = [] :=
  ⟨generateOpt_leftover n (genBound p) p [] (le_refl _),
    stepOpt_iterate n (genBound p) p (le_refl _)⟩

/-! ## Coverage: the soundness argument (C1) -/

theorem covers_iff {n : Nat} {m : monomial} {x : List Bool} :
    covers n m x = true ↔
      ∀ i, i < n → bvget m.mask i = true → bvget m.values i = bvget x i := by
  unfold covers
  rw [List.all_eq_true]
  constructor
  · intro h i hi hm
    have hvi := h i (List.mem_range.2 hi)
    rw [hm] at hvi
    simpa using hvi
  · intro h i hi
    rw [List.mem_range] at hi
    cases hm : bvget m.mask i
    · simp
    · simp [h i hi hm]

theorem meq_covers {n : Nat} {a b : monomial} (h : meq n a b = true) (x : List Bool) :
    (covers n a x = true ↔ covers n b x = true) := by
  simp only [meq, Bool.and_eq_true, beq_iff_eq, List.all_eq_true] at h
  obtain ⟨hm, hv⟩ := h
  rw [covers_iff, covers_iff]
  constructor
  · intro hc i hi hbm
    have hbm' : bvget a.mask i = true := by rw [hm]; exact hbm
    have hvv := hv i (List.mem_range.2 hi)
    rw [hbm'] at hvv
    simp only [Bool.not_true, Bool.false_or] at hvv
    rw [← beq_iff_eq.1 hvv]
    exact hc i hi hbm'
  · intro hc i hi hbm
    have hbm' : bvget b.mask i = true := by rw [← hm]; exact hbm
    have hvv := hv i (List.mem_range.2 hi)
    rw [hbm] at hvv
    simp only [Bool.not_true, Bool.false_or] at hvv
    rw [beq_iff_eq.1 hvv]
    exact hc i hi hbm'

theorem covers_merged_iff {n : Nat} {mi mj : monomial} {k : Nat}
    (hmask : mi.mask = mj.mask) (hmatch : matchCore n mi mj = some k) (x : List Bool) :
    (covers n (merged mi k) x = true ↔
      (covers n mi x = true ∨ covers n mj x = true)) := by
  obtain ⟨hkn, hvi, hvj, hagree⟩ := matchCore_char hmatch
  rw [covers_iff, covers_iff, covers_iff]
  simp only [merged]
  constructor
  · intro h
    by_cases hx : bvget x k = bvget mi.values k
    · left
      intro i hi hm
      by_cases hik : i = k
      · subst hik
        exact hx.symm
      · have hmm : bvget (bvset mi.mask k false) i = true := by
          rw [bvget_bvset, if_neg (fun hc => hik hc.1.symm)]
          exact hm
        exact h i hi hmm
    · right
      intro i hi hm
      by_cases hik : i = k
      · subst hik
        rw [hvj]
        cases hxk : bvget x i
        · rw [hvi, hxk] at hx
          exact absurd rfl hx
        · rfl
      · have hmi : bvget mi.mask i = true := by rw [hmask]; exact hm
        have hmm : bvget (bvset mi.mask k false) i = true := by
          rw [bvget_bvset, if_neg (fun hc => hik hc.1.symm)]
          exact hmi
        have hvx := h i hi hmm
        rw [← hagree i hi hik]
        exact hvx
  · intro h i hi hmm
    have hsplit : bvget mi.mask i = true ∧ (k = i → ¬ k < mi.mask.length) := by
      rw [bvget_bvset] at hmm
      by_cases hc : k = i ∧ k < mi.mask.length
      · rw [if_pos hc] at hmm
        cases hmm
      · rw [if_neg hc] at hmm
        exact ⟨hmm, fun h1 h2 => hc ⟨h1, h2⟩⟩
    rcases h with hcov | hcov
    · exact hcov i hi hsplit.1
    · have hmj : bvget mj.mask i = true := by rw [← hmask]; exact hsplit.1
      have hx := hcov i hi hmj
      by_cases hik : i = k
      · exfalso
        subst hik
        have hlen : i < mi.mask.length := by
          by_contra hge
          have hfalse : bvget mi.mask i = false := by
            unfold bvget
            rw [List.getD_eq_getElem?_getD, List.getElem?_eq_none (by omega)]
            rfl
          rw [hfalse] at hsplit
          cases hsplit.1
        exact (hsplit.2 rfl) hlen
      · rw [hagree i hi hik]
        exact hx

theorem compactGo_covE (n : Nat) (x : List Bool) : ∀ (l : List monomial) (prev : monomial),
    ((∃ m ∈ compactGo n prev l, covers n m x = true) ∨ covers n prev x = true) ↔
      ((∃ m ∈ l, covers n m x = true) ∨ covers n prev x = true) := by
  intro l
  induction l with
  | nil => intro prev; simp [compactGo]
  | cons y ys ih =>
    intro prev
    by_cases h : meq n y prev = true
    · simp only [compactGo, if_pos h]
      rw [ih prev]
      have hyx := meq_covers h x
      simp only [List.mem_cons]
      constructor
      · rintro (⟨m, hm, hc⟩ | hc)
        · exact Or.inl ⟨m, Or.inr hm, hc⟩
        · exact Or.inr hc
      · rintro (⟨m, rfl | hm, hc⟩ | hc)
        · exact Or.inr (hyx.1 hc)
        · exact Or.inl ⟨m, hm, hc⟩
        · exact Or.inr hc
    · simp only [compactGo, if_neg h]
      have hih := ih y
      simp only [List.mem_cons] at hih ⊢
      constructor
      · rintro (⟨m, rfl | hm, hc⟩ | hc)
        · exact Or.inl ⟨m, Or.inl rfl, hc⟩
        · rcases hih.1 (Or.inl ⟨m, hm, hc⟩) with ⟨m', hm', hc'⟩ | hc'
          · exact Or.inl ⟨m', Or.inr hm', hc'⟩
          · exact Or.inl ⟨y, Or.inl rfl, hc'⟩
        · exact Or.inr hc
      · rintro (⟨m, rfl | hm, hc⟩ | hc)
        · exact Or.inl ⟨m, Or.inl rfl, hc⟩
        · rcases hih.2 (Or.inl ⟨m, hm, hc⟩) with ⟨m', hm', hc'⟩ | hc'
          · exact Or.inl ⟨m', Or.inr hm', hc'⟩
          · exact Or.inl ⟨y, Or.inl rfl, hc'⟩
        · exact Or.inr hc

theorem compact_covE (n : Nat) (x : List Bool) (l : List monomial) :
    (∃ m ∈ compact n l, covers n m x = true) ↔ (∃ m ∈ l, covers n m x = true) := by
  cases l with
  | nil => simp [compact]
  | cons x0 xs =>
    simp only [compact, List.mem_cons]
    have h := compactGo_covE n x xs x0
    constructor
    · rintro ⟨m, rfl | hm, hc⟩
      · exact ⟨m, Or.inl rfl, hc⟩
      · rcases h.1 (Or.inl ⟨m, hm, hc⟩) with ⟨m', hm', hc'⟩ | hc'
        · exact ⟨m', Or.inr hm', hc'⟩
        · exact ⟨x0, Or.inl rfl, hc'⟩
    · rintro ⟨m, rfl | hm, hc⟩
      · exact ⟨m, Or.inl rfl, hc⟩
      · rcases h.2 (Or.inl ⟨m, hm, hc⟩) with ⟨m', hm', hc'⟩ | hc'
        · exact ⟨m', Or.inr hm', hc'⟩
        · exact ⟨x0, Or.inl rfl, hc'⟩

theorem normalize_covE (n : Nat) (x : List Bool) (l : List monomial) :
    (∃ m ∈ normalize n l, covers n m x = true) ↔ (∃ m ∈ l, covers n m x = true) := by
  unfold normalize
  rw [compact_covE]
  have hperm := List.perm_insertionSort mrel l
  constructor
  · rintro ⟨m, hm, hc⟩
    exact ⟨m, hperm.mem_iff.mp hm, hc⟩
  · rintro ⟨m, hm, hc⟩
    exact ⟨m, hperm.mem_iff.mpr hm, hc⟩

theorem round_cov (n : Nat) (p : List monomial) (x : List Bool) :
    ((∃ m ∈ primesAdd p (succPairsOpt n p), covers n m x = true) ∨
      (∃ m ∈ nextRound n p (succPairsOpt n p), covers n m x = true)) ↔
      (∃ m ∈ p, covers n m x = true) := by
  constructor
  · rintro (⟨m, hm, hc⟩ | ⟨m, hm, hc⟩)
    · have hmem : m ∈ p := by
        unfold primesAdd at hm
        rw [List.mem_map] at hm
        obtain ⟨i, hi, rfl⟩ := hm
        rw [List.mem_filter] at hi
        exact mget_mem (List.mem_range.1 hi.1)
      exact ⟨m, hmem, hc⟩
    · obtain ⟨pr, hpr, hcons⟩ := mem_nextRound hm
      have hgood := succPairsOpt_good n p pr hpr
      obtain ⟨k, hk, rfl⟩ := consensusO_eq_some hcons
      have hiff := covers_merged_iff hgood.2.2.1 hk x
      rcases hiff.1 hc with h | h
      · exact ⟨mget p pr.1, mget_mem (by have := hgood.1; have := hgood.2.1; omega), h⟩
      · exact ⟨mget p pr.2, mget_mem hgood.2.1, h⟩
  · rintro ⟨m, hm, hc⟩
    obtain ⟨i, hi, heq⟩ := List.getElem_of_mem hm
    have hmg : mget p i = m := by
      unfold mget
      rw [List.getD_eq_getElem _ _ hi]
      exact heq
    by_cases hflag : ∀ pr ∈ succPairsOpt n p, pr.1 ≠ i ∧ pr.2 ≠ i
    · left
      refine ⟨mget p i, ?_, by rw [hmg]; exact hc⟩
      unfold primesAdd
      rw [List.mem_map]
      refine ⟨i, List.mem_filter.2 ⟨List.mem_range.2 hi, ?_⟩, rfl⟩
      rw [List.all_eq_true]
      intro pr hpr
      have hne := hflag pr hpr
      simp [hne.1, hne.2]
    · right
      push_neg at hflag
      obtain ⟨pr, hpr, hside⟩ := hflag
      have hgood := succPairsOpt_good n p pr hpr
      obtain ⟨m', hm'⟩ := Option.isSome_iff_exists.1 hgood.2.2.2.2
      obtain ⟨k, hk, rfl⟩ := consensusO_eq_some hm'
      refine ⟨merged (mget p pr.1) k, ?_, ?_⟩
      · unfold nextRound
        rw [List.mem_filterMap]
        exact ⟨pr, hpr, hm'⟩
      · have hiff := covers_merged_iff hgood.2.2.1 hk x
        by_cases h1 : pr.1 = i
        · apply hiff.2
          left
          rw [h1, hmg]
          exact hc
        · have h2 := hside h1
          apply hiff.2
          right
          rw [h2, hmg]
          exact hc

theorem generateOpt_cov (n : Nat) (x : List Bool) : ∀ (fuel : Nat) (p acc : List monomial),
    genBound p ≤ fuel →
    ((∃ m ∈ (generateOpt n fuel p acc).2, covers n m x = true) ↔
      ((∃ m ∈ acc, covers n m x = true) ∨ (∃ m ∈ p, covers n m x = true))) := by
  intro fuel
  induction fuel with
  | zero =>
    intro p acc h
    have hpn : p = [] := by
      cases hq : p.isEmpty
      · rw [genBound, hq] at h
        simp at h
      · exact List.isEmpty_iff.1 hq
    subst hpn
    simp [generateOpt]
  | succ fuel ih =>
    intro p acc h
    by_cases hp : p.isEmpty = true
    · have hpn : p = [] := List.isEmpty_iff.1 hp
      subst hpn
      simp [generateOpt]
    · simp only [generateOpt, if_neg hp]
      have hne : p ≠ [] := fun he => hp (by rw [he]; rfl)
      have hdec := stepOpt_measure n p hne
      rw [ih (normalize n (nextRound n p (succPairsOpt n p)))
        (acc ++ primesAdd p (succPairsOpt n p)) (by unfold stepOpt at hdec; omega)]
      rw [normalize_covE]
      have hround := round_cov n p x
      constructor
      · rintro (⟨m, hm, hc⟩ | hnext)
        · rcases List.mem_append.1 hm with hm | hm
          · exact Or.inl ⟨m, hm, hc⟩
          · exact Or.inr (hround.1 (Or.inl ⟨m, hm, hc⟩))
        · exact Or.inr (hround.1 (Or.inr hnext))
      · rintro (⟨m, hm, hc⟩ | hple)
        · exact Or.inl ⟨m, List.mem_append.2 (Or.inl hm), hc⟩
        · rcases hround.2 hple with ⟨m, hm, hc⟩ | hnext
          · exact Or.inl ⟨m, List.mem_append.2 (Or.inr hm), hc⟩
          · exact Or.inr hnext

theorem covers_input_iff {n : Nat} {r x : List Bool} (hr : r.length = n)
    (hx : x.length = n) :
    (covers n (⟨r.count true, List.replicate r.length true, r⟩ : monomial) x = true ↔
      x = r) := by
  rw [covers_iff]
  constructor
  · intro h
    apply List.ext_getElem (by omega)
    intro i h1 h2
    have hi : i < n := by omega
    have hm : bvget (⟨r.count true, List.replicate r.length true, r⟩ : monomial).mask i
        = true := by
      show bvget (List.replicate r.length true) i = true
      unfold bvget
      rw [List.getD_eq_getElem _ _ (by simpa using (by omega : i < r.length))]
      exact List.getElem_replicate true _
    have hvv := h i hi hm
    show x[i] = r[i]
    have hgx : bvget x i = x[i] := by
      unfold bvget
      rw [List.getD_eq_getElem _ _ h1]
    have hgr : bvget r i = r[i] := by
      unfold bvget
      rw [List.getD_eq_getElem _ _ h2]
    rw [← hgx, ← hgr]
    exact hvv.symm
  · rintro rfl
    intro i _ _
    rfl

/-- C1: soundness of the whole pipeline of `main` (default build): the set
of minterms covered by the prime implicants it produces — each output
monomial with its don't-care positions expanded to all combinations —
equals the set of input minterms: no minterm is gained and none is lost. -/
theorem quienny_sound (n : Nat) (rows : List (List Bool))
    (hrows : ∀ r ∈ rows, r.length = n) (x : List Bool) (hx : x.length = n) :
    ((∃ m ∈ quiennyOpt n rows, covers n m x = true) ↔ x ∈ rows) := by
  unfold quiennyOpt
  rw [normalize_covE]
  rw [generateOpt_cov n x _ _ [] (le_refl _)]
  rw [normalize_covE]
  simp only [List.not_mem_nil, false_and, exists_false, false_or]
  unfold inputPoly
  constructor
  · rintro ⟨m, hm, hc⟩
    rw [List.mem_map] at hm
    obtain ⟨r, hr, rfl⟩ := hm
    have := (covers_input_iff (hrows r hr) hx).1 hc
    rw [this]
    exact hr
  · intro hmem
    refine ⟨⟨x.count true, List.replicate x.length true, x⟩, ?_, ?_⟩
    · rw [List.mem_map]
      exact ⟨x, hmem, rfl⟩
    · exact (covers_input_iff (hrows x hmem) hx).2 rfl

/-- Witness for `quienny_sound` at a concrete input. -/
theorem quienny_sound_witness :
    (∀ r ∈ [[false, false], [false, true]], r.length = 2) ∧
    ([false, true] : List Bool).length = 2 ∧
    ((∃ m ∈ quiennyOpt 2 [[false, false], [false, true]],
        covers 2 m [false, true] = true) ↔
      [false, true] ∈ [[false, false], [false, true]]) :=
  ⟨by decide, by decide,
    quienny_sound 2 [[false, false], [false, true]] (by decide) [false, true] (by decide)⟩

end Quienny
